import Mathlib

/-!
# Verification of the indicator engine
Shallow embedding of `src/indicator_calculator/indicator.py` (pandas code).

Modelling conventions:
* A float64 cell is `Val := Option ℚ`: `none` stands for a missing value
  (`NaN` / `pd.NA`), `some q` for a finite float, with real-number arithmetic
  replacing floating point.  Arithmetic on a missing operand is missing.
* The one place where IEEE infinities can appear transiently — RSI's
  `rs = avg_gain / avg_loss` followed by `100 - 100/(1+rs)` — is computed in
  the four-point extension `FloatVal` (finite / +inf / -inf / NaN) with IEEE
  division rules, and the result is stored back as a cell.
* A `pd.DataFrame` is a `Table`: a list of integer row labels (the index;
  initially `0..n-1`) plus named columns of cells.  `.loc[label, col]`
  follows pandas semantics: reading a missing label raises `KeyError`
  (modelled with `Except`), writing a missing label *enlarges* the table by
  appending a new row holding `NaN` in every other column.
* Fallible calls return `Except String Table`; the string names the Python
  exception raised.
-/

namespace Indicator

/-- A float64 cell: `none` = NaN / missing, `some q` = the finite value `q`. -/
abbrev Val := Option ℚ

/-- Cell addition; a missing operand makes the result missing. -/
def vAdd : Val → Val → Val
  | some a, some b => some (a + b)
  | _, _ => none

/-- Cell subtraction; a missing operand makes the result missing. -/
def vSub : Val → Val → Val
  | some a, some b => some (a - b)
  | _, _ => none

/-- Cell multiplied by a finite constant; missing stays missing. -/
def vMulC : Val → ℚ → Val
  | some a, c => some (a * c)
  | none, _ => none

/-- IEEE-style extended value used for RSI's relative-strength division:
finite, +infinity, -infinity, or NaN. -/
inductive FloatVal
  | fin (q : ℚ)
  | posInf
  | negInf
  | nan
deriving DecidableEq

namespace FloatVal

/-- IEEE addition on extended values. -/
def add : FloatVal → FloatVal → FloatVal
  | nan, _ => nan
  | _, nan => nan
  | fin a, fin b => fin (a + b)
  | fin _, posInf => posInf
  | posInf, fin _ => posInf
  | fin _, negInf => negInf
  | negInf, fin _ => negInf
  | posInf, posInf => posInf
  | negInf, negInf => negInf
  | posInf, negInf => nan
  | negInf, posInf => nan

/-- IEEE subtraction on extended values. -/
def sub : FloatVal → FloatVal → FloatVal
  | nan, _ => nan
  | _, nan => nan
  | fin a, fin b => fin (a - b)
  | fin _, posInf => negInf
  | posInf, fin _ => posInf
  | fin _, negInf => posInf
  | negInf, fin _ => negInf
  | posInf, negInf => posInf
  | negInf, posInf => negInf
  | posInf, posInf => nan
  | negInf, negInf => nan

/-- IEEE division on extended values.  Rationals carry no signed zero; every
zero denominator produced by this program is a (positive) zero of a mean of
nonnegative series, so `a / 0` is `+inf` for `a > 0`, `-inf` for `a < 0`,
and NaN for `0 / 0` — exactly float64 with a `+0.0` denominator. -/
def div : FloatVal → FloatVal → FloatVal
  | nan, _ => nan
  | _, nan => nan
  | fin a, fin b =>
      if b = 0 then (if a = 0 then nan else if 0 < a then posInf else negInf)
      else fin (a / b)
  | fin _, posInf => fin 0
  | fin _, negInf => fin 0
  | posInf, fin b => if 0 ≤ b then posInf else negInf
  | negInf, fin b => if 0 ≤ b then negInf else posInf
  | posInf, posInf => nan
  | posInf, negInf => nan
  | negInf, posInf => nan
  | negInf, negInf => nan

/-- View a cell as an extended value (missing = NaN). -/
def ofVal : Val → FloatVal
  | some q => fin q
  | none => nan

/-- Store an extended value back into a cell.  NaN becomes missing; the
infinite cases are unreachable for the RSI expression (its value is proved
finite-or-NaN below) and are also mapped to missing. -/
def toVal : FloatVal → Val
  | fin q => some q
  | _ => none

end FloatVal

/-- `Series.mean()`: NaN-skipping mean; NaN when no observation is present. -/
def seriesMean (xs : List Val) : Val :=
  let vs := xs.filterMap id
  if vs.isEmpty then none else some (vs.sum / (vs.length : ℚ))

/-- `Series.rolling(window=p).mean()`: entry `i` is the mean of the `p`-wide
window ending at `i`.  `min_periods` defaults to the window size, so the
entry is NaN whenever the window is incomplete (`i + 1 < p`) or any entry in
it is NaN; a zero-width window has no observations, hence NaN. -/
def rollingMean (p : ℕ) (xs : List Val) : List Val :=
  (List.range xs.length).map fun i =>
    if p = 0 ∨ i + 1 < p then none
    else
      let w := (xs.take (i + 1)).drop (i + 1 - p)
      let vs := w.filterMap id
      if vs.length = w.length then some (vs.sum / (p : ℚ)) else none

/-- `Series.diff()`: entry 0 is NaN, entry `i` is `x[i] - x[i-1]`
(NaN-propagating). -/
def diffS (xs : List Val) : List Val :=
  (List.range xs.length).map fun i =>
    if i = 0 then none else vSub (xs.getD i none) (xs.getD (i - 1) none)

/-- One cell of `delta.where(delta > 0, 0)`: keep the delta where the
condition holds, otherwise the replacement 0.  A NaN comparison is False,
so a NaN delta is replaced by 0. -/
def gainCell : Val → Val
  | some q => if 0 < q then some q else some 0
  | none => some 0

/-- One cell of `-delta.where(delta < 0, 0)`: the negated kept-or-replaced
delta; as for `gainCell`, a NaN delta yields 0. -/
def lossCell : Val → Val
  | some q => if q < 0 then some (-q) else some 0
  | none => some 0

/-- One row of `rs = avg_gain / avg_loss` and `rsi = 100 - (100 / (1 + rs))`
(source lines 28 and 32), under IEEE float semantics. -/
def rsiCell (g l : Val) : Val :=
  (FloatVal.sub (.fin 100)
    (FloatVal.div (.fin 100)
      (FloatVal.add (.fin 1) (FloatVal.div (.ofVal g) (.ofVal l))))).toVal

/-- One step of pandas `ewm(adjust=False, ignore_na=False).mean()`.  The
state is the current mean together with the accumulated relative weight of
the history.  While the mean is NaN (no observation yet) the first
observation becomes the mean; a NaN input leaves the mean and decays the
history weight; an observation combines with weights `w*(1-α)` and `α` and
resets the history weight to 1. -/
def ewmStep (alpha : ℚ) : (Val × ℚ) → Val → (Val × ℚ)
  | (none, w), none => (none, w)
  | (none, _), some c => (some c, 1)
  | (some m, w), none => (some m, w * (1 - alpha))
  | (some m, w), some c =>
      let ow := w * (1 - alpha)
      (some ((ow * m + alpha * c) / (ow + alpha)), 1)

/-- The per-row outputs of the exponentially weighted mean: each row's output
is the state mean after consuming that row. -/
def ewmGo (alpha : ℚ) (st : Val × ℚ) : List Val → List Val
  | [] => []
  | x :: rest =>
      let st2 := ewmStep alpha st x
      st2.1 :: ewmGo alpha st2 rest

/-- `Series.ewm(span, adjust=False).mean()` with `alpha = 2 / (span + 1)`. -/
def ewmMean (alpha : ℚ) (xs : List Val) : List Val := ewmGo alpha (none, 1) xs

/-- A pandas DataFrame: integer row labels (the index) plus named columns.
A freshly loaded table has labels `0..n-1` and every column as long as the
label list. -/
structure Table where
  labels : List Int
  cols : List (String × List Val)
deriving DecidableEq

namespace Table

/-- Number of rows (`len(df)`). -/
def numRows (t : Table) : ℕ := t.labels.length

/-- The column names, in order. -/
def colNames (t : Table) : List String := t.cols.map Prod.fst

/-- `df[c]`: the first column named `c`, if any. -/
def getCol (t : Table) (c : String) : Option (List Val) :=
  (t.cols.find? fun p => p.1 == c).map Prod.snd

/-- Rewrite every column entry named `c` (at most one in a table with unique
names) to hold `f` of its cells. -/
def updateCols (cols : List (String × List Val)) (c : String)
    (f : List Val → List Val) : List (String × List Val) :=
  cols.map fun p => if p.1 == c then (c, f p.2) else p

/-- `df[c] = xs`: replace the column named `c` in place, or append it at the
end when no column has that name. -/
def setCol (t : Table) (c : String) (xs : List Val) : Table :=
  if t.colNames.contains c then
    { t with cols := updateCols t.cols c fun _ => xs }
  else
    { t with cols := t.cols ++ [(c, xs)] }

/-- `df.drop(names, axis=1)`. -/
def dropCols (t : Table) (names : List String) : Table :=
  { t with cols := t.cols.filter fun p => !(names.contains p.1) }

/-- `df.loc[lbl, c]` (read): `KeyError` when the label or the column is
missing. -/
def locGet (t : Table) (lbl : Int) (c : String) : Except String Val :=
  match t.labels.findIdx? (fun l => l == lbl), t.getCol c with
  | some i, some xs => .ok (xs.getD i none)
  | _, _ => .error "KeyError"

/-- Overwrite position `i` of the column named `c`. -/
def setCell (t : Table) (i : ℕ) (c : String) (v : Val) : Table :=
  { t with cols := updateCols t.cols c fun ys => ys.set i v }

/-- The label lookup step of `.loc[lbl, c] = v`: update in place when the
label exists, otherwise append a new row labelled `lbl` holding NaN in every
column but `c` (pandas "setting with enlargement"). -/
def locSetCore (t : Table) (lbl : Int) (c : String) (v : Val) : Table :=
  match t.labels.findIdx? (fun l => l == lbl) with
  | some i => t.setCell i c v
  | none =>
      { labels := t.labels ++ [lbl],
        cols := t.cols.map fun p => (p.1, p.2 ++ [if p.1 == c then v else none]) }

/-- `df.loc[lbl, c] = v` (write): a missing column is first created filled
with NaN, then the labelled row is written (or created). -/
def locSet (t : Table) (lbl : Int) (c : String) (v : Val) : Table :=
  locSetCore (if t.colNames.contains c then t else t.setCol c (List.replicate t.numRows none))
    lbl c v

end Table

/-- Python `range(a, n)` as a list of `Int` (used for `range(start, len(df))`;
the start can be negative when a period parameter is 0). -/
def intRangeFrom (a : Int) (n : ℕ) : List Int :=
  (List.range ((n : Int) - a).toNat).map fun k => a + Int.ofNat k

/-- Python slice `xs[a : b]` with possibly negative bounds (`.iloc[a:b]`). -/
def pySlice {α : Type} (xs : List α) (a b : Int) : List α :=
  let n : Int := xs.length
  let norm : Int → ℕ := fun i => (if i < 0 then max 0 (n + i) else min i n).toNat
  (xs.take (norm b)).drop (norm a)

/-- The standard index `[0, 1, ..., n-1]` of a freshly loaded table. -/
def intRange (n : ℕ) : List Int := (List.range n).map Int.ofNat

/-- `calculate_rsi(data, period)` (source lines 4–34): diff of `close`,
gain/loss split, rolling means, relative strength, and the
`f"rsi_{period}"` column.  Reading a missing `close` column raises
`KeyError`. -/
def calculate_rsi (data : Table) (period : ℕ) : Except String Table :=
  match data.getCol "close" with
  | none => .error "KeyError"
  | some close =>
    let delta := diffS close
    let gain := delta.map gainCell
    let loss := delta.map lossCell
    let avg_gain := rollingMean period gain
    let avg_loss := rollingMean period loss
    let rsi := List.zipWith rsiCell avg_gain avg_loss
    .ok (data.setCol ("rsi_" ++ toString period) rsi)

/-- `calculate_ema(data, period)` (source lines 37–54):
`close.ewm(span=period, adjust=False).mean()` into `f"ema_{period}"`.
`ewm` rejects `span < 1` with a `ValueError` (after `result["close"]` has
been evaluated, so a missing column raises `KeyError` first). -/
def calculate_ema (data : Table) (period : ℕ) : Except String Table :=
  match data.getCol "close" with
  | none => .error "KeyError"
  | some close =>
    if period < 1 then .error "ValueError: span must satisfy: span >= 1"
    else .ok (data.setCol ("ema_" ++ toString period)
      (ewmMean (2 / ((period : ℚ) + 1)) close))

/-- `calculate_sma(data, period, column)` (source lines 137–155):
`column.rolling(window=period).mean()` into `f"sma_{period}"`. -/
def calculate_sma (data : Table) (period : ℕ) (column : String) :
    Except String Table :=
  match data.getCol column with
  | none => .error "KeyError"
  | some src => .ok (data.setCol ("sma_" ++ toString period) (rollingMean period src))

/-- The fast/slow EMA loop of `calculate_macd` (source lines 88–91 and
97–100): for each `i`, read `loc[i, column]` and `loc[i-1, emaCol]` and write
their blend into `loc[i, emaCol]`. -/
def emaLoop (column emaCol : String) (mult : ℚ) :
    List Int → Table → Except String Table
  | [], t => .ok t
  | i :: rest, t => do
    let price ← t.locGet i column
    let prev ← t.locGet (i - 1) emaCol
    emaLoop column emaCol mult rest
      (t.locSet i emaCol (vAdd (vMulC price mult) (vMulC prev (1 - mult))))

/-- The MACD-line loop (source lines 104–105): `macd_line[i] = ema_fast[i] -
ema_slow[i]`. -/
def macdLoop : List Int → Table → Except String Table
  | [], t => .ok t
  | i :: rest, t => do
    let f ← t.locGet i "ema_fast"
    let s ← t.locGet i "ema_slow"
    macdLoop rest (t.locSet i "macd_line" (vSub f s))

/-- The signal-line recurrence loop (source lines 121–125). -/
def signalLoop (mult : ℚ) : List Int → Table → Except String Table
  | [], t => .ok t
  | i :: rest, t => do
    let m ← t.locGet i "macd_line"
    let prev ← t.locGet (i - 1) "signal_line"
    signalLoop mult rest
      (t.locSet i "signal_line" (vAdd (vMulC m mult) (vMulC prev (1 - mult))))

/-- The histogram loop (source lines 128–129): `macd_histogram[i] =
macd_line[i] - signal_line[i]`. -/
def histLoop : List Int → Table → Except String Table
  | [], t => .ok t
  | i :: rest, t => do
    let m ← t.locGet i "macd_line"
    let s ← t.locGet i "signal_line"
    histLoop rest (t.locSet i "macd_histogram" (vSub m s))

/-- `calculate_macd(data, fast_period, slow_period, signal_period, column)`
(source lines 57–134), translated statement by statement: the five NA
columns, SMA-seeded fast and slow EMAs, the MACD line from `slow_period-1`,
the SMA-seeded signal line over the first valid MACD values, the histogram,
and the drop of the two intermediate EMA columns. -/
def calculate_macd (data : Table) (fast_period slow_period signal_period : ℕ)
    (column : String) : Except String Table := do
  let result := data
  let result := result.setCol "ema_fast" (List.replicate result.numRows none)
  let result := result.setCol "ema_slow" (List.replicate result.numRows none)
  let result := result.setCol "macd_line" (List.replicate result.numRows none)
  let result := result.setCol "signal_line" (List.replicate result.numRows none)
  let result := result.setCol "macd_histogram" (List.replicate result.numRows none)
  let fastMult : ℚ := 2 / ((fast_period : ℚ) + 1)
  let src ← match result.getCol column with
    | some xs => Except.ok xs
    | none => Except.error "KeyError"
  let result := result.locSet ((fast_period : Int) - 1) "ema_fast"
    (seriesMean (src.take fast_period))
  let result ← emaLoop column "ema_fast" fastMult
    (intRangeFrom (fast_period : Int) result.numRows) result
  let slowMult : ℚ := 2 / ((slow_period : ℚ) + 1)
  let src2 ← match result.getCol column with
    | some xs => Except.ok xs
    | none => Except.error "KeyError"
  let result := result.locSet ((slow_period : Int) - 1) "ema_slow"
    (seriesMean (src2.take slow_period))
  let result ← emaLoop column "ema_slow" slowMult
    (intRangeFrom (slow_period : Int) result.numRows) result
  let result ← macdLoop (intRangeFrom ((slow_period : Int) - 1) result.numRows) result
  let signalMult : ℚ := 2 / ((signal_period : ℚ) + 1)
  let firstValidMacd : Int := (max fast_period slow_period : ℕ) - 1
  let firstSignalIndex : Int := firstValidMacd + (signal_period : Int) - 1
  let result ←
    if firstSignalIndex < (result.numRows : Int) then do
      let macdCol ← match result.getCol "macd_line" with
        | some xs => Except.ok xs
        | none => Except.error "KeyError"
      let valid := (pySlice macdCol firstValidMacd (firstSignalIndex + 1)).filterMap id
      if valid.length > 0 then do
        let result := result.locSet firstSignalIndex "signal_line"
          (some (valid.sum / (valid.length : ℚ)))
        signalLoop signalMult (intRangeFrom (firstSignalIndex + 1) result.numRows) result
      else pure result
    else pure result
  let result ← histLoop (intRangeFrom firstSignalIndex result.numRows) result
  pure (result.dropCols ["ema_fast", "ema_slow"])

/-! ## Standard tables and basic table lemmas -/

/-- A standard table with `n` rows: the index is `0..n-1` (as produced by the
external loader), every column has `n` cells, and the column names are
distinct. -/
def Std (t : Table) (n : ℕ) : Prop :=
  t.labels = intRange n ∧ (∀ p ∈ t.cols, p.2.length = n) ∧ t.colNames.Nodup

/-- A one-row table with a single `close` column. -/
def wOne : Table := { labels := intRange 1, cols := [("close", [some 1])] }

/-- A two-row table with a single `close` column. -/
def wTwo : Table := { labels := intRange 2, cols := [("close", [some 1, some 2])] }

/-- A three-row table with a single `close` column. -/
def wThree : Table :=
  { labels := intRange 3, cols := [("close", [some 1, some 2, some 3])] }

/-- A one-row table that already holds a column named `ema_fast`. -/
def wEmaFast : Table :=
  { labels := intRange 1, cols := [("close", [some 5]), ("ema_fast", [some 7])] }

def gains (close : List Val) : List Val := (diffS close).map gainCell

/-- The loss series of the close column. -/
def losses (close : List Val) : List Val := (diffS close).map lossCell

/-- The rolling mean of gains over the period. -/
def avgGain (p : ℕ) (close : List Val) : List Val := rollingMean p (gains close)

/-- The rolling mean of losses over the period. -/
def avgLoss (p : ℕ) (close : List Val) : List Val := rollingMean p (losses close)

/-- The produced RSI column. -/
def rsiColumn (p : ℕ) (close : List Val) : List Val :=
  List.zipWith rsiCell (avgGain p close) (avgLoss p close)

/-! ## Pure recurrence helpers -/

/-- One step of the seeded-EMA recurrence on cells:
`current * mult + previous * (1 - mult)`. -/
def blend (mult : ℚ) (s prev : Val) : Val := vAdd (vMulC s mult) (vMulC prev (1 - mult))

/-- Iterate a two-argument cell recurrence along a list, emitting each new
accumulator value. -/
def recTail (g : Val → Val → Val) : Val → List Val → List Val
  | _, [] => []
  | prev, s :: rest => g s prev :: recTail g (g s prev) rest

/-! ## The MACD pipeline, described purely -/

/-- The five column names `calculate_macd` creates (and the two it drops). -/
def reservedNames : List String :=
  ["ema_fast", "ema_slow", "macd_line", "signal_line", "macd_histogram"]

/-- The SMA-seeded EMA column of period `p`: absent before row `p-1`, the
(NaN-skipping) mean of the first `p` source cells at row `p-1`, then the
recurrence `mult*src[i] + (1-mult)*ema[i-1]`. -/
def smaSeededEma (mult : ℚ) (p : ℕ) (src : List Val) : List Val :=
  List.replicate (p - 1) none ++
    seriesMean (src.take p) ::
      recTail (blend mult) (seriesMean (src.take p)) (src.drop p)

/-- The `macd_line` column: absent before row `S-1`, then fast EMA minus
slow EMA. -/
def macdLineL (F S : ℕ) (src : List Val) : List Val :=
  List.replicate (S - 1) none ++
    List.zipWith vSub ((smaSeededEma (2 / ((F : ℚ) + 1)) F src).drop (S - 1))
      ((smaSeededEma (2 / ((S : ℚ) + 1)) S src).drop (S - 1))

/-- The non-absent MACD values in the signal seed window
(rows `max F S - 1 .. max F S + G - 2`). -/
def macdValid (F S G : ℕ) (src : List Val) : List ℚ :=
  (((macdLineL F S src).take (max F S + G - 1)).drop (max F S - 1)).filterMap id

/-- The `signal_line` column: all absent unless the seed row exists and the
seed window holds at least one valid MACD value; otherwise seeded with the
window mean at row `max F S + G - 2` and recurred after it. -/
def signalLineL (F S G n : ℕ) (src : List Val) : List Val :=
  let fsi := max F S + G - 2
  let valid := macdValid F S G src
  let seed : Val := some (valid.sum / (valid.length : ℚ))
  if fsi < n ∧ 0 < valid.length then
    List.replicate fsi none ++
      seed :: recTail (blend (2 / ((G : ℚ) + 1))) seed ((macdLineL F S src).drop (fsi + 1))
  else List.replicate n none

/-- The `macd_histogram` column: absent before the signal seed row, then
MACD line minus signal line. -/
def histogramL (F S G n : ℕ) (src : List Val) : List Val :=
  let fsi := max F S + G - 2
  List.replicate (min fsi n) none ++
    List.zipWith vSub ((macdLineL F S src).drop fsi) ((signalLineL F S G n src).drop fsi)

/-- The table extended with the five MACD working columns. -/
def mkExt (t : Table) (x1 x2 x3 x4 x5 : List Val) : Table :=
  { labels := t.labels,
    cols := t.cols ++ [("ema_fast", x1), ("ema_slow", x2), ("macd_line", x3),
                       ("signal_line", x4), ("macd_histogram", x5)] }

theorem intRange_zero : intRange 0 = [] := rfl

theorem intRange_succ (n : ℕ) : intRange (n + 1) = intRange n ++ [(n : Int)] := by
  unfold intRange
  rw [List.range_succ, List.map_append]
  rfl

theorem intRange_length (n : ℕ) : (intRange n).length = n := by
  unfold intRange
  rw [List.length_map, List.length_range]

theorem intRange_findIdx? (n : ℕ) (lbl : Int) :
    (intRange n).findIdx? (fun l => l == lbl) =
      if 0 ≤ lbl ∧ lbl < (n : Int) then some lbl.toNat else none := by
  induction n with
  | zero =>
      rw [intRange_zero, if_neg (by omega)]
      rfl
  | succ n ih =>
      rw [intRange_succ, List.findIdx?_append, ih]
      by_cases h1 : 0 ≤ lbl ∧ lbl < (n : Int)
      · rw [if_pos h1, if_pos (by push_cast; omega)]
        rfl
      · rw [if_neg h1]
        by_cases h2 : lbl = (n : Int)
        · subst h2
          rw [if_pos (by push_cast; omega)]
          simp [intRange_length]
        · have hb : (((n : ℕ) : Int) == lbl) = false := by
            rw [beq_eq_false_iff_ne]
            omega
          rw [if_neg (by push_cast; omega)]
          simp [List.findIdx?, hb]

namespace Table

theorem contains_iff (l : List String) (c : String) : l.contains c = true ↔ c ∈ l := by
  simp

theorem updateCols_cons (p : String × List Val) (cols : List (String × List Val))
    (c : String) (f : List Val → List Val) :
    updateCols (p :: cols) c f =
      (if p.1 = c then (c, f p.2) else p) :: updateCols cols c f := by
  unfold updateCols
  rw [List.map_cons]
  by_cases hp : p.1 = c
  · rw [if_pos (by simpa using hp), if_pos hp]
  · rw [if_neg (by simpa using hp), if_neg hp]

theorem updateCols_fst (cols : List (String × List Val)) (c : String)
    (f : List Val → List Val) :
    (updateCols cols c f).map Prod.fst = cols.map Prod.fst := by
  induction cols with
  | nil => rfl
  | cons p cols ih =>
      rw [updateCols_cons, List.map_cons, List.map_cons, ih]
      by_cases hp : p.1 = c
      · rw [if_pos hp]
        simp [hp]
      · rw [if_neg hp]

theorem find?_updateCols_self (cols : List (String × List Val)) (c : String)
    (f : List Val → List Val) :
    (updateCols cols c f).find? (fun p => p.1 == c) =
      (cols.find? fun p => p.1 == c).map fun p => (c, f p.2) := by
  induction cols with
  | nil => rfl
  | cons p cols ih =>
      rw [updateCols_cons]
      by_cases hp : p.1 = c
      · rw [if_pos hp]
        rw [List.find?_cons_of_pos _ (by simp), List.find?_cons_of_pos _ (by simp [hp])]
        simp [hp]
      · rw [if_neg hp]
        rw [List.find?_cons_of_neg _ (by simp [hp]), List.find?_cons_of_neg _ (by simp [hp])]
        exact ih

theorem find?_updateCols_ne (cols : List (String × List Val)) {c c' : String}
    (f : List Val → List Val) (h : c' ≠ c) :
    (updateCols cols c f).find? (fun p => p.1 == c') = cols.find? fun p => p.1 == c' := by
  induction cols with
  | nil => rfl
  | cons p cols ih =>
      rw [updateCols_cons]
      by_cases hp : p.1 = c
      · rw [if_pos hp]
        rw [List.find?_cons_of_neg _ (by simp [Ne.symm h]),
          List.find?_cons_of_neg _ (by simp [hp, Ne.symm h])]
        exact ih
      · rw [if_neg hp]
        by_cases hq : p.1 = c'
        · rw [List.find?_cons_of_pos _ (by simp [hq]), List.find?_cons_of_pos _ (by simp [hq])]
        · rw [List.find?_cons_of_neg _ (by simp [hq]), List.find?_cons_of_neg _ (by simp [hq])]
          exact ih

theorem updateCols_of_notMem (cols : List (String × List Val)) {c : String}
    (f : List Val → List Val) (h : c ∉ cols.map Prod.fst) :
    updateCols cols c f = cols := by
  induction cols with
  | nil => rfl
  | cons p cols ih =>
      have hp : p.1 ≠ c := by
        intro he
        exact h (by simp [he])
      have ht : c ∉ cols.map Prod.fst := by
        intro hx
        exact h (by simp [hx])
      rw [updateCols_cons, if_neg hp, ih ht]

theorem updateCols_updateCols (cols : List (String × List Val)) (c : String)
    (f g : List Val → List Val) :
    updateCols (updateCols cols c f) c g = updateCols cols c (fun ys => g (f ys)) := by
  induction cols with
  | nil => rfl
  | cons p cols ih =>
      by_cases hp : p.1 = c <;> simp [updateCols_cons, hp, ih]

theorem length_updateCols (cols : List (String × List Val)) (c : String)
    (f : List Val → List Val) {n : ℕ} (hcols : ∀ p ∈ cols, p.2.length = n)
    (hf : ∀ ys : List Val, ys.length = n → (f ys).length = n) :
    ∀ p ∈ updateCols cols c f, p.2.length = n := by
  induction cols with
  | nil => intro p hp; simp [updateCols] at hp
  | cons p cols ih =>
      intro q hq
      rw [updateCols_cons, List.mem_cons] at hq
      rcases hq with hq | hq
      · by_cases hp : p.1 = c
        · rw [if_pos hp] at hq
          rw [hq]
          exact hf _ (hcols p (List.mem_cons_self _ _))
        · rw [if_neg hp] at hq
          rw [hq]
          exact hcols p (List.mem_cons_self _ _)
      · exact ih (fun r hr => hcols r (List.mem_cons_of_mem _ hr)) q hq

/-- A column read after an in-place write of the same column. -/
theorem getCol_setCol_self (t : Table) (c : String) (xs : List Val) :
    (t.setCol c xs).getCol c = some xs := by
  unfold setCol
  by_cases h : t.colNames.contains c
  · rw [if_pos h]
    unfold getCol
    simp only
    rw [find?_updateCols_self]
    have : (t.cols.find? fun p => p.1 == c).isSome := by
      rw [List.find?_isSome]
      rcases (contains_iff _ _).mp h with hmem
      rcases List.mem_map.mp hmem with ⟨p, hp, hfst⟩
      exact ⟨p, hp, by simp [hfst]⟩
    rcases Option.isSome_iff_exists.mp this with ⟨p, hp⟩
    rw [hp]
    rfl
  · rw [if_neg h]
    unfold getCol
    simp only
    have hnone : t.cols.find? (fun p => p.1 == c) = none := by
      rw [List.find?_eq_none]
      intro p hp hbeq
      exact absurd ((contains_iff _ _).mpr
        (List.mem_map.mpr ⟨p, hp, by simpa using hbeq⟩)) h
    rw [List.find?_append, hnone]
    simp

theorem getCol_setCol_ne (t : Table) {c c' : String} (xs : List Val) (h : c' ≠ c) :
    (t.setCol c xs).getCol c' = t.getCol c' := by
  unfold setCol
  by_cases hc : t.colNames.contains c
  · rw [if_pos hc]
    unfold getCol
    simp only
    rw [find?_updateCols_ne _ _ h]
  · rw [if_neg hc]
    unfold getCol
    simp only
    rw [List.find?_append]
    have : List.find? (fun p => p.1 == c') [(c, xs)] = none := by
      rw [List.find?_cons_of_neg _ (by simp [Ne.symm h])]
      rfl
    rw [this]
    simp

theorem labels_setCol (t : Table) (c : String) (xs : List Val) :
    (t.setCol c xs).labels = t.labels := by
  unfold setCol
  split <;> rfl

theorem cols_setCol_notMem (t : Table) {c : String} (xs : List Val)
    (h : c ∉ t.colNames) : (t.setCol c xs).cols = t.cols ++ [(c, xs)] := by
  unfold setCol
  have hx : ¬ t.colNames.contains c = true := fun hx => h ((contains_iff _ _).mp hx)
  rw [if_neg hx]

theorem colNames_setCol_mem (t : Table) {c : String} (xs : List Val)
    (h : c ∈ t.colNames) : (t.setCol c xs).colNames = t.colNames := by
  unfold setCol
  rw [if_pos ((contains_iff _ _).mpr h)]
  show (updateCols t.cols c fun _ => xs).map Prod.fst = t.cols.map Prod.fst
  exact updateCols_fst _ _ _

theorem colNames_setCol_notMem (t : Table) {c : String} (xs : List Val)
    (h : c ∉ t.colNames) : (t.setCol c xs).colNames = t.colNames ++ [c] := by
  unfold colNames
  rw [cols_setCol_notMem t xs h]
  simp [colNames]

theorem labels_setCell (t : Table) (i : ℕ) (c : String) (v : Val) :
    (t.setCell i c v).labels = t.labels := rfl

theorem colNames_setCell (t : Table) (i : ℕ) (c : String) (v : Val) :
    (t.setCell i c v).colNames = t.colNames := by
  show (updateCols t.cols c fun ys => ys.set i v).map Prod.fst = t.cols.map Prod.fst
  exact updateCols_fst _ _ _

theorem getCol_setCell_self (t : Table) {i : ℕ} {c : String} {v : Val}
    {E : List Val} (h : t.getCol c = some E) :
    (t.setCell i c v).getCol c = some (E.set i v) := by
  unfold setCell getCol
  simp only
  rw [find?_updateCols_self]
  unfold getCol at h
  rcases Option.map_eq_some'.mp h with ⟨p, hp, hsnd⟩
  rw [hp]
  simp [hsnd]

theorem getCol_setCell_ne (t : Table) {i : ℕ} {c c' : String} {v : Val}
    (h : c' ≠ c) : (t.setCell i c v).getCol c' = t.getCol c' := by
  unfold setCell getCol
  simp only
  rw [find?_updateCols_ne _ _ h]

/-- `setCol` right after `setCell` on the same column overrides it. -/
theorem setCol_setCell (t : Table) (i : ℕ) (c : String) (v : Val) (xs : List Val) :
    (t.setCell i c v).setCol c xs = t.setCol c xs := by
  unfold setCol
  rw [colNames_setCell]
  by_cases hc : t.colNames.contains c
  · rw [if_pos hc, if_pos hc]
    unfold setCell
    simp only
    rw [updateCols_updateCols]
  · rw [if_neg hc, if_neg hc]
    have : c ∉ t.cols.map Prod.fst := by
      intro hx
      exact absurd ((contains_iff _ _).mpr hx) hc
    show Table.mk t.labels ((updateCols t.cols c fun ys => ys.set i v) ++ [(c, xs)]) =
      Table.mk t.labels (t.cols ++ [(c, xs)])
    rw [updateCols_of_notMem _ _ this]

/-- Membership in `colNames` from a successful `getCol`. -/
theorem mem_colNames_of_getCol (t : Table) {c : String} {E : List Val}
    (h : t.getCol c = some E) : c ∈ t.colNames := by
  unfold getCol at h
  rcases Option.map_eq_some'.mp h with ⟨p, hp, _⟩
  have := List.find?_some hp
  have hmem := List.mem_of_find?_eq_some hp
  unfold colNames
  exact List.mem_map.mpr ⟨p, hmem, by simpa using this⟩

/-- Cell length from a successful `getCol` on a standard table. -/
theorem length_of_getCol {t : Table} {n : ℕ} {c : String} {E : List Val}
    (hStd : Std t n) (h : t.getCol c = some E) : E.length = n := by
  unfold getCol at h
  rcases Option.map_eq_some'.mp h with ⟨p, hp, hsnd⟩
  have hmem := List.mem_of_find?_eq_some hp
  rw [← hsnd]
  exact hStd.2.1 p hmem

/-- In-bounds `.loc` read on a standard table is a positional read. -/
theorem locGet_std {t : Table} {n : ℕ} {c : String} {E : List Val}
    (hl : t.labels = intRange n) (hc : t.getCol c = some E) {i : ℕ} (hi : i < n) :
    t.locGet (i : Int) c = .ok (E.getD i none) := by
  unfold locGet
  rw [hl, intRange_findIdx?, if_pos (by constructor <;> omega), hc]
  simp

/-- In-bounds `.loc` write of an existing column on a standard table is a
positional write. -/
theorem locSet_std {t : Table} {n : ℕ} {c : String}
    (hl : t.labels = intRange n) (hc : c ∈ t.colNames) {i : ℕ} (hi : i < n) (v : Val) :
    t.locSet (i : Int) c v = t.setCell i c v := by
  unfold locSet
  rw [if_pos ((contains_iff _ _).mpr hc)]
  unfold locSetCore
  rw [hl, intRange_findIdx?, if_pos (by constructor <;> omega)]
  simp

theorem labels_dropCols (t : Table) (names : List String) :
    (t.dropCols names).labels = t.labels := rfl

theorem find?_filter_dropCols (names : List String) {c : String}
    (hcf : names.contains c = false) :
    ∀ cols : List (String × List Val),
      (cols.filter fun p => !names.contains p.1).find? (fun p => p.1 == c) =
        cols.find? (fun p => p.1 == c)
  | [] => rfl
  | p :: cols => by
      by_cases hp : p.1 = c
      · rw [List.filter_cons, if_pos (by rw [hp, hcf]; rfl)]
        rw [List.find?_cons_of_pos _ (by simp [hp]), List.find?_cons_of_pos _ (by simp [hp])]
      · rw [List.filter_cons]
        cases hk : names.contains p.1 with
        | true =>
            rw [if_neg (by simp [hk])]
            rw [List.find?_cons_of_neg _ (by simp [hp])]
            exact find?_filter_dropCols names hcf cols
        | false =>
            rw [if_pos (by simp [hk])]
            rw [List.find?_cons_of_neg _ (by simp [hp]), List.find?_cons_of_neg _ (by simp [hp])]
            exact find?_filter_dropCols names hcf cols

theorem getCol_dropCols_notMem (t : Table) {c : String} {names : List String}
    (h : ¬ names.contains c) : (t.dropCols names).getCol c = t.getCol c := by
  unfold dropCols getCol
  simp only
  congr 1
  exact find?_filter_dropCols names (Bool.eq_false_iff.mpr h) t.cols

theorem find?_eq_of_mem_nodup : ∀ (cols : List (String × List Val)),
    (cols.map Prod.fst).Nodup → ∀ p ∈ cols, cols.find? (fun q => q.1 == p.1) = some p
  | [], _, p, hp => by simp at hp
  | q :: cols, hnd, p, hp => by
      rcases List.mem_cons.mp hp with h | h
      · rw [h, List.find?_cons_of_pos _ (by simp)]
      · have hnd' := hnd
        rw [List.map_cons, List.nodup_cons] at hnd'
        have hq : q.1 ≠ p.1 := by
          intro he
          exact hnd'.1 (he ▸ List.mem_map.mpr ⟨p, h, rfl⟩)
        rw [List.find?_cons_of_neg _ (by simp [hq])]
        exact find?_eq_of_mem_nodup cols hnd'.2 p h

/-- With unique column names, every entry of `cols` is what `getCol` finds. -/
theorem getCol_eq_of_mem {t : Table} (hnd : t.colNames.Nodup) {p : String × List Val}
    (hp : p ∈ t.cols) : t.getCol p.1 = some p.2 := by
  unfold getCol
  rw [find?_eq_of_mem_nodup t.cols hnd p hp]
  rfl

theorem updateCols_id (cols : List (String × List Val)) (c : String)
    (f : List Val → List Val) (h : ∀ p ∈ cols, p.1 = c → f p.2 = p.2) :
    updateCols cols c f = cols := by
  induction cols with
  | nil => rfl
  | cons p cols ih =>
      rw [updateCols_cons]
      by_cases hp : p.1 = c
      · rw [if_pos hp, h p (List.mem_cons_self _ _) hp,
          ih fun q hq => h q (List.mem_cons_of_mem _ hq)]
        rw [← hp]
      · rw [if_neg hp, ih fun q hq => h q (List.mem_cons_of_mem _ hq)]

/-- Writing back the column that is already there changes nothing. -/
theorem setCol_getCol_self {t : Table} {c : String} {E : List Val}
    (hnd : t.colNames.Nodup) (h : t.getCol c = some E) : t.setCol c E = t := by
  unfold setCol
  rw [if_pos ((contains_iff _ _).mpr (mem_colNames_of_getCol t h))]
  have : updateCols t.cols c (fun _ => E) = t.cols := by
    apply updateCols_id
    intro p hp hpc
    have := getCol_eq_of_mem hnd hp
    rw [hpc, h] at this
    exact Option.some_inj.mp this
  rw [this]

theorem numRows_of_std {t : Table} {n : ℕ} (hStd : Std t n) : t.numRows = n := by
  unfold numRows
  rw [hStd.1, intRange_length]

theorem std_setCell {t : Table} {n : ℕ} (hStd : Std t n) (i : ℕ) (c : String) (v : Val) :
    Std (t.setCell i c v) n := by
  refine ⟨hStd.1, ?_, ?_⟩
  · show ∀ p ∈ updateCols t.cols c fun ys => ys.set i v, p.2.length = n
    exact length_updateCols _ _ _ hStd.2.1 fun ys h => by rw [List.length_set]; exact h
  · rw [show (t.setCell i c v).colNames = t.colNames from colNames_setCell t i c v]
    exact hStd.2.2

theorem std_setCol_mem {t : Table} {n : ℕ} (hStd : Std t n) {c : String}
    (hc : c ∈ t.colNames) {xs : List Val} (hlen : xs.length = n) :
    Std (t.setCol c xs) n := by
  refine ⟨?_, ?_, ?_⟩
  · rw [labels_setCol]; exact hStd.1
  · unfold setCol
    rw [if_pos ((contains_iff _ _).mpr hc)]
    show ∀ p ∈ updateCols t.cols c fun _ => xs, p.2.length = n
    exact length_updateCols _ _ _ hStd.2.1 fun ys _ => hlen
  · rw [colNames_setCol_mem t xs hc]; exact hStd.2.2

theorem std_setCol_notMem {t : Table} {n : ℕ} (hStd : Std t n) {c : String}
    (hc : c ∉ t.colNames) {xs : List Val} (hlen : xs.length = n) :
    Std (t.setCol c xs) n := by
  refine ⟨?_, ?_, ?_⟩
  · rw [labels_setCol]; exact hStd.1
  · rw [show (t.setCol c xs).cols = t.cols ++ [(c, xs)] from cols_setCol_notMem t xs hc]
    intro p hp
    rcases List.mem_append.mp hp with h | h
    · exact hStd.2.1 p h
    · rw [List.mem_singleton.mp h]
      exact hlen
  · rw [colNames_setCol_notMem t xs hc]
    rw [List.nodup_append]
    exact ⟨hStd.2.2, List.nodup_singleton c, by simpa using hc⟩

end Table

theorem recTail_length (g : Val → Val → Val) (prev : Val) (xs : List Val) :
    (recTail g prev xs).length = xs.length := by
  induction xs generalizing prev with
  | nil => rfl
  | cons x rest ih => rw [recTail]; simpa using ih _

theorem recTail_getD (g : Val → Val → Val) (prev : Val) (xs : List Val) (i : ℕ)
    (h : i < xs.length) :
    (recTail g prev xs).getD i none =
      g (xs.getD i none)
        (if i = 0 then prev else (recTail g prev xs).getD (i - 1) none) := by
  induction xs generalizing prev i with
  | nil => simp at h
  | cons x rest ih =>
      rw [recTail]
      cases i with
      | zero => simp
      | succ j =>
          rw [List.getD_cons_succ, ih (g x prev) j (by simpa using h),
            if_neg (Nat.succ_ne_zero j), show j + 1 - 1 = j from rfl,
            List.getD_cons_succ]
          cases j with
          | zero => simp
          | succ k =>
              rw [if_neg (Nat.succ_ne_zero k), show k + 1 - 1 = k from rfl,
                List.getD_cons_succ]

theorem recTail_isSome (g : Val → Val → Val)
    (hg : ∀ x y, x.isSome → y.isSome → (g x y).isSome) (prev : Val) (xs : List Val)
    (hprev : prev.isSome) (hxs : ∀ x ∈ xs, x.isSome) :
    ∀ y ∈ recTail g prev xs, y.isSome := by
  induction xs generalizing prev with
  | nil => intro y hy; simp [recTail] at hy
  | cons x rest ih =>
      intro y hy
      rw [recTail, List.mem_cons] at hy
      have hx : (g x prev).isSome :=
        hg x prev (hxs x (List.mem_cons_self _ _)) hprev
      rcases hy with hy | hy
      · rw [hy]; exact hx
      · exact ih (g x prev) hx (fun z hz => hxs z (List.mem_cons_of_mem _ hz)) y hy

theorem blend_isSome (mult : ℚ) (x y : Val) (hx : x.isSome) (hy : y.isSome) :
    (blend mult x y).isSome := by
  rcases Option.isSome_iff_exists.mp hx with ⟨a, rfl⟩
  rcases Option.isSome_iff_exists.mp hy with ⟨b, rfl⟩
  rfl

/-! ## `intRangeFrom` as a list of indices -/

theorem intRangeFrom_nil {a : Int} {n : ℕ} (h : (n : Int) ≤ a) :
    intRangeFrom a n = [] := by
  unfold intRangeFrom
  rw [show ((n : Int) - a).toNat = 0 from by omega]
  rfl

theorem intRangeFrom_cons (a n : ℕ) (h : a < n) :
    intRangeFrom (a : Int) n = (a : Int) :: intRangeFrom ((a + 1 : ℕ) : Int) n := by
  unfold intRangeFrom
  rw [show ((n : Int) - (a : Int)).toNat = (n - (a + 1)) + 1 from by omega]
  rw [show ((n : Int) - ((a + 1 : ℕ) : Int)).toNat = n - (a + 1) from by omega]
  rw [List.range_succ_eq_map]
  rw [List.map_cons, List.map_map]
  congr 1
  apply List.map_congr_left
  intro x _
  simp only [Function.comp_apply, Int.ofNat_eq_coe, Nat.succ_eq_add_one]
  push_cast
  ring

/-- Helper: `take (a+1)` after an in-bounds `set a`. -/
theorem take_set_self {α : Type} (l : List α) (a : ℕ) (v : α) (h : a < l.length) :
    (l.set a v).take (a + 1) = l.take a ++ [v] := by
  apply List.ext_getElem?
  intro i
  by_cases h1 : i < a
  · rw [List.getElem?_take_of_lt (by omega), List.getElem?_set_ne (by omega),
      List.getElem?_append_left (by simp; omega), List.getElem?_take_of_lt (by omega)]
  · by_cases h2 : i = a
    · subst h2
      rw [List.getElem?_take_of_lt (by omega), List.getElem?_set_self (by simpa using h),
        List.getElem?_append_right (by simp), List.length_take]
      simp [Nat.min_eq_left (Nat.le_of_lt h)]
    · rw [List.getElem?_take_eq_none (by omega)]
      rw [List.getElem?_append_right
        (by rw [List.length_take, Nat.min_eq_left (Nat.le_of_lt h)]; omega)]
      rw [List.length_take, Nat.min_eq_left (Nat.le_of_lt h)]
      rw [show i - a = (i - a - 1) + 1 from by omega]
      simp

/-- Helper: getD of a list at an in-bounds index as a cons of drops. -/
theorem drop_eq_getD_cons {α : Type} {l : List α} {a : ℕ} (d : α) (h : a < l.length) :
    l.drop a = l.getD a d :: l.drop (a + 1) := by
  rw [List.drop_eq_getElem_cons h]
  congr 1
  rw [List.getD_eq_getElem?_getD, List.getElem?_eq_getElem h]
  rfl

/-- Helper: getD right after an in-bounds set. -/
theorem getD_set_self {α : Type} (l : List α) (a : ℕ) (v d : α) (h : a < l.length) :
    (l.set a v).getD a d = v := by
  rw [List.getD_eq_getElem?_getD, List.getElem?_set_self (by simpa using h)]
  rfl

theorem exceptBind_ok {e α β : Type} (x : α) (f : α → Except e β) :
    (Except.ok x : Except e α) >>= f = f x := rfl

/-! ## Loop characterizations

Each of the four row loops of `calculate_macd`, run on a standard table over
the index range `[a, n)`, rewrites the positions `a .. n-1` of its target
column and leaves everything else alone. -/

/-- The fast/slow EMA loop over `[a, n)` (with `a ≥ 1`) replaces the tail of
the EMA column by the recurrence driven from its cell at `a - 1`. -/
theorem emaLoop_spec (column emaCol : String) (hne : column ≠ emaCol) (mult : ℚ)
    (n : ℕ) :
    ∀ (k a : ℕ), n ≤ a + k → 1 ≤ a → ∀ (t : Table) (src E : List Val),
      Std t n → t.getCol column = some src → t.getCol emaCol = some E →
      emaLoop column emaCol mult (intRangeFrom (a : Int) n) t =
        .ok (t.setCol emaCol
          (E.take a ++ recTail (blend mult) (E.getD (a - 1) none) (src.drop a)))
  | k, a, hk, ha, t, src, E, hStd, hsrc, hE => by
    have hElen : E.length = n := Table.length_of_getCol hStd hE
    have hsrclen : src.length = n := Table.length_of_getCol hStd hsrc
    by_cases hlt : a < n
    · cases k with
      | zero => omega
      | succ k =>
          rw [intRangeFrom_cons a n hlt]
          show (t.locGet (a : Int) column) >>= _ = _
          rw [Table.locGet_std hStd.1 hsrc hlt, exceptBind_ok]
          show (t.locGet ((a : Int) - 1) emaCol) >>= _ = _
          rw [show (a : Int) - 1 = ((a - 1 : ℕ) : Int) from by omega,
            Table.locGet_std hStd.1 hE (by omega), exceptBind_ok]
          rw [Table.locSet_std hStd.1 (Table.mem_colNames_of_getCol t hE) hlt]
          rw [emaLoop_spec column emaCol hne mult n k (a + 1) (by omega) (by omega)
            (t.setCell a emaCol
              (vAdd (vMulC (src.getD a none) mult) (vMulC (E.getD (a - 1) none) (1 - mult))))
            src (E.set a (vAdd (vMulC (src.getD a none) mult)
              (vMulC (E.getD (a - 1) none) (1 - mult))))
            (Table.std_setCell hStd _ _ _)
            (by rw [Table.getCol_setCell_ne t hne]; exact hsrc)
            (Table.getCol_setCell_self t hE)]
          rw [Table.setCol_setCell]
          congr 2
          rw [take_set_self E a _ (by omega)]
          rw [show a + 1 - 1 = a from rfl]
          rw [getD_set_self E a _ _ (by omega)]
          rw [drop_eq_getD_cons none (show a < src.length by omega)]
          rw [recTail]
          show _ = E.take a ++ blend mult (src.getD a none) (E.getD (a - 1) none)
            :: recTail (blend mult) (blend mult (src.getD a none) (E.getD (a - 1) none))
              (src.drop (a + 1))
          rw [blend]
          simp [List.append_assoc]
    · rw [intRangeFrom_nil (by omega)]
      show Except.ok t = _
      rw [List.take_of_length_le (by omega), List.drop_eq_nil_of_le (by omega)]
      rw [show recTail (blend mult) (E.getD (a - 1) none) [] = [] from rfl]
      rw [List.append_nil, Table.setCol_getCol_self hStd.2.2 hE]

/-- The signal-line loop is the EMA loop reading `macd_line` and recurring on
`signal_line`. -/
theorem signalLoop_eq (mult : ℚ) :
    ∀ (l : List Int) (t : Table),
      signalLoop mult l t = emaLoop "macd_line" "signal_line" mult l t
  | [], _ => rfl
  | i :: rest, t => by
      show (t.locGet i "macd_line") >>= _ = (t.locGet i "macd_line") >>= _
      cases t.locGet i "macd_line" with
      | error e => rfl
      | ok m =>
          rw [exceptBind_ok, exceptBind_ok]
          show (t.locGet (i - 1) "signal_line") >>= _ = (t.locGet (i - 1) "signal_line") >>= _
          cases t.locGet (i - 1) "signal_line" with
          | error e => rfl
          | ok prev =>
              rw [exceptBind_ok, exceptBind_ok]
              exact signalLoop_eq mult rest _

/-- The MACD-line loop over `[a, n)` replaces the tail of `macd_line` by the
pointwise difference of the two EMA columns. -/
theorem macdLoop_spec (n : ℕ) :
    ∀ (k a : ℕ), n ≤ a + k → ∀ (t : Table) (F S M : List Val),
      Std t n → t.getCol "ema_fast" = some F → t.getCol "ema_slow" = some S →
      t.getCol "macd_line" = some M →
      macdLoop (intRangeFrom (a : Int) n) t =
        .ok (t.setCol "macd_line"
          (M.take a ++ List.zipWith vSub (F.drop a) (S.drop a)))
  | k, a, hk, t, F, S, M, hStd, hF, hS, hM => by
    have hFlen : F.length = n := Table.length_of_getCol hStd hF
    have hSlen : S.length = n := Table.length_of_getCol hStd hS
    have hMlen : M.length = n := Table.length_of_getCol hStd hM
    by_cases hlt : a < n
    · cases k with
      | zero => omega
      | succ k =>
          rw [intRangeFrom_cons a n hlt]
          show (t.locGet (a : Int) "ema_fast") >>= _ = _
          rw [Table.locGet_std hStd.1 hF hlt, exceptBind_ok]
          show (t.locGet (a : Int) "ema_slow") >>= _ = _
          rw [Table.locGet_std hStd.1 hS hlt, exceptBind_ok]
          rw [Table.locSet_std hStd.1 (Table.mem_colNames_of_getCol t hM) hlt]
          rw [macdLoop_spec n k (a + 1) (by omega)
            (t.setCell a "macd_line" (vSub (F.getD a none) (S.getD a none)))
            F S (M.set a (vSub (F.getD a none) (S.getD a none)))
            (Table.std_setCell hStd _ _ _)
            (by rw [Table.getCol_setCell_ne t (by decide)]; exact hF)
            (by rw [Table.getCol_setCell_ne t (by decide)]; exact hS)
            (Table.getCol_setCell_self t hM)]
          rw [Table.setCol_setCell]
          congr 2
          rw [take_set_self M a _ (by omega)]
          rw [drop_eq_getD_cons none (show a < F.length by omega),
            drop_eq_getD_cons none (show a < S.length by omega)]
          rw [List.zipWith_cons_cons]
          simp [List.append_assoc]
    · rw [intRangeFrom_nil (by omega)]
      show Except.ok t = _
      rw [List.take_of_length_le (by omega), List.drop_eq_nil_of_le (by omega),
        List.drop_eq_nil_of_le (by omega)]
      rw [show List.zipWith vSub [] [] = [] from rfl]
      rw [List.append_nil, Table.setCol_getCol_self hStd.2.2 hM]

/-- The histogram loop over `[a, n)` replaces the tail of `macd_histogram`
by the pointwise difference of `macd_line` and `signal_line`. -/
theorem histLoop_spec (n : ℕ) :
    ∀ (k a : ℕ), n ≤ a + k → ∀ (t : Table) (M SL H : List Val),
      Std t n → t.getCol "macd_line" = some M → t.getCol "signal_line" = some SL →
      t.getCol "macd_histogram" = some H →
      histLoop (intRangeFrom (a : Int) n) t =
        .ok (t.setCol "macd_histogram"
          (H.take a ++ List.zipWith vSub (M.drop a) (SL.drop a)))
  | k, a, hk, t, M, SL, H, hStd, hM, hSL, hH => by
    have hMlen : M.length = n := Table.length_of_getCol hStd hM
    have hSLlen : SL.length = n := Table.length_of_getCol hStd hSL
    have hHlen : H.length = n := Table.length_of_getCol hStd hH
    by_cases hlt : a < n
    · cases k with
      | zero => omega
      | succ k =>
          rw [intRangeFrom_cons a n hlt]
          show (t.locGet (a : Int) "macd_line") >>= _ = _
          rw [Table.locGet_std hStd.1 hM hlt, exceptBind_ok]
          show (t.locGet (a : Int) "signal_line") >>= _ = _
          rw [Table.locGet_std hStd.1 hSL hlt, exceptBind_ok]
          rw [Table.locSet_std hStd.1 (Table.mem_colNames_of_getCol t hH) hlt]
          rw [histLoop_spec n k (a + 1) (by omega)
            (t.setCell a "macd_histogram" (vSub (M.getD a none) (SL.getD a none)))
            M SL (H.set a (vSub (M.getD a none) (SL.getD a none)))
            (Table.std_setCell hStd _ _ _)
            (by rw [Table.getCol_setCell_ne t (by decide)]; exact hM)
            (by rw [Table.getCol_setCell_ne t (by decide)]; exact hSL)
            (Table.getCol_setCell_self t hH)]
          rw [Table.setCol_setCell]
          congr 2
          rw [take_set_self H a _ (by omega)]
          rw [drop_eq_getD_cons none (show a < M.length by omega),
            drop_eq_getD_cons none (show a < SL.length by omega)]
          rw [List.zipWith_cons_cons]
          simp [List.append_assoc]
    · rw [intRangeFrom_nil (by omega)]
      show Except.ok t = _
      rw [List.take_of_length_le (by omega), List.drop_eq_nil_of_le (by omega),
        List.drop_eq_nil_of_le (by omega)]
      rw [show List.zipWith vSub [] [] = [] from rfl]
      rw [List.append_nil, Table.setCol_getCol_self hStd.2.2 hH]

namespace Table

theorem numRows_setCol (t : Table) (c : String) (xs : List Val) :
    (t.setCol c xs).numRows = t.numRows := by
  unfold numRows
  rw [labels_setCol]

theorem numRows_setCell (t : Table) (i : ℕ) (c : String) (v : Val) :
    (t.setCell i c v).numRows = t.numRows := rfl

theorem find?_none_of_fresh (t : Table) {c : String} (hc : c ∉ t.colNames) :
    t.cols.find? (fun p => p.1 == c) = none := by
  rw [List.find?_eq_none]
  intro p hp hbeq
  exact hc (List.mem_map.mpr ⟨p, hp, by simpa using hbeq⟩)

end Table

theorem numRows_mkExt (t : Table) (x1 x2 x3 x4 x5 : List Val) :
    (mkExt t x1 x2 x3 x4 x5).numRows = t.numRows := rfl

theorem colNames_mkExt (t : Table) (x1 x2 x3 x4 x5 : List Val) :
    (mkExt t x1 x2 x3 x4 x5).colNames = t.colNames ++ reservedNames := by
  unfold mkExt Table.colNames reservedNames
  rw [List.map_append]
  rfl

theorem std_mkExt {t : Table} {n : ℕ} (hStd : Std t n)
    (hfresh : ∀ r ∈ reservedNames, r ∉ t.colNames) {x1 x2 x3 x4 x5 : List Val}
    (h1 : x1.length = n) (h2 : x2.length = n) (h3 : x3.length = n)
    (h4 : x4.length = n) (h5 : x5.length = n) :
    Std (mkExt t x1 x2 x3 x4 x5) n := by
  refine ⟨hStd.1, ?_, ?_⟩
  · intro p hp
    rcases List.mem_append.mp hp with h | h
    · exact hStd.2.1 p h
    · simp only [List.mem_cons, List.mem_singleton] at h
      rcases h with h | h | h | h | h | h
      all_goals first
        | (rw [h]; assumption)
        | simp at h
  · rw [colNames_mkExt]
    rw [List.nodup_append]
    refine ⟨hStd.2.2, by decide, ?_⟩
    intro a ha hb
    exact hfresh a hb ha

theorem getCol_mkExt_of_fresh {t : Table}
    (hfresh : ∀ r ∈ reservedNames, r ∉ t.colNames) (x1 x2 x3 x4 x5 : List Val) :
    ((mkExt t x1 x2 x3 x4 x5).getCol "ema_fast" = some x1 ∧
      (mkExt t x1 x2 x3 x4 x5).getCol "ema_slow" = some x2) ∧
    ((mkExt t x1 x2 x3 x4 x5).getCol "macd_line" = some x3 ∧
      (mkExt t x1 x2 x3 x4 x5).getCol "signal_line" = some x4) ∧
    (mkExt t x1 x2 x3 x4 x5).getCol "macd_histogram" = some x5 := by
  unfold mkExt Table.getCol
  simp only
  rw [List.find?_append, Table.find?_none_of_fresh t (hfresh _ (by decide))]
  refine ⟨⟨?_, ?_⟩, ⟨?_, ?_⟩, ?_⟩
  · rfl
  · rw [List.find?_append, Table.find?_none_of_fresh t (hfresh _ (by decide))]
    rfl
  · rw [List.find?_append, Table.find?_none_of_fresh t (hfresh _ (by decide))]
    rfl
  · rw [List.find?_append, Table.find?_none_of_fresh t (hfresh _ (by decide))]
    rfl
  · rw [List.find?_append, Table.find?_none_of_fresh t (hfresh _ (by decide))]
    rfl

theorem getCol_mkExt_other {t : Table} {c : String} (hc : c ∉ reservedNames)
    (x1 x2 x3 x4 x5 : List Val) :
    (mkExt t x1 x2 x3 x4 x5).getCol c = t.getCol c := by
  have h1 : ("ema_fast" : String) ≠ c := fun h => hc (h ▸ by decide)
  have h2 : ("ema_slow" : String) ≠ c := fun h => hc (h ▸ by decide)
  have h3 : ("macd_line" : String) ≠ c := fun h => hc (h ▸ by decide)
  have h4 : ("signal_line" : String) ≠ c := fun h => hc (h ▸ by decide)
  have h5 : ("macd_histogram" : String) ≠ c := fun h => hc (h ▸ by decide)
  unfold mkExt Table.getCol
  simp only
  rw [List.find?_append]
  rw [List.find?_cons_of_neg _ (by simp [h1]), List.find?_cons_of_neg _ (by simp [h2]),
    List.find?_cons_of_neg _ (by simp [h3]), List.find?_cons_of_neg _ (by simp [h4]),
    List.find?_cons_of_neg _ (by simp [h5])]
  rw [show List.find? (fun p => p.1 == c) ([] : List (String × List Val)) = none from rfl]
  rw [Option.or_none]

/-- Writing one of the five working columns of the extended table in place. -/
theorem updateCols_ext (cols : List (String × List Val))
    (hfresh : ∀ r ∈ reservedNames, r ∉ cols.map Prod.fst)
    (x1 x2 x3 x4 x5 : List Val) (f : List Val → List Val) :
    (Table.updateCols (cols ++ [("ema_fast", x1), ("ema_slow", x2), ("macd_line", x3),
        ("signal_line", x4), ("macd_histogram", x5)]) "ema_fast" f =
      cols ++ [("ema_fast", f x1), ("ema_slow", x2), ("macd_line", x3),
        ("signal_line", x4), ("macd_histogram", x5)]) ∧
    (Table.updateCols (cols ++ [("ema_fast", x1), ("ema_slow", x2), ("macd_line", x3),
        ("signal_line", x4), ("macd_histogram", x5)]) "ema_slow" f =
      cols ++ [("ema_fast", x1), ("ema_slow", f x2), ("macd_line", x3),
        ("signal_line", x4), ("macd_histogram", x5)]) ∧
    (Table.updateCols (cols ++ [("ema_fast", x1), ("ema_slow", x2), ("macd_line", x3),
        ("signal_line", x4), ("macd_histogram", x5)]) "macd_line" f =
      cols ++ [("ema_fast", x1), ("ema_slow", x2), ("macd_line", f x3),
        ("signal_line", x4), ("macd_histogram", x5)]) ∧
    (Table.updateCols (cols ++ [("ema_fast", x1), ("ema_slow", x2), ("macd_line", x3),
        ("signal_line", x4), ("macd_histogram", x5)]) "signal_line" f =
      cols ++ [("ema_fast", x1), ("ema_slow", x2), ("macd_line", x3),
        ("signal_line", f x4), ("macd_histogram", x5)]) ∧
    (Table.updateCols (cols ++ [("ema_fast", x1), ("ema_slow", x2), ("macd_line", x3),
        ("signal_line", x4), ("macd_histogram", x5)]) "macd_histogram" f =
      cols ++ [("ema_fast", x1), ("ema_slow", x2), ("macd_line", x3),
        ("signal_line", x4), ("macd_histogram", f x5)]) := by
  refine ⟨?_, ?_, ?_, ?_, ?_⟩ <;>
    (unfold Table.updateCols
     rw [List.map_append]
     congr 1
     exact Table.updateCols_of_notMem cols _ (hfresh _ (by decide)))

theorem setCol_eq_updateCols {t : Table} {c : String} (hc : c ∈ t.colNames)
    (xs : List Val) :
    t.setCol c xs = { t with cols := Table.updateCols t.cols c fun _ => xs } := by
  unfold Table.setCol
  rw [if_pos ((Table.contains_iff _ _).mpr hc)]

/-- `setCol` of each working column on the extended table. -/
theorem setCol_mkExt (t : Table) (hfresh : ∀ r ∈ reservedNames, r ∉ t.colNames)
    (x1 x2 x3 x4 x5 y : List Val) :
    ((mkExt t x1 x2 x3 x4 x5).setCol "ema_fast" y = mkExt t y x2 x3 x4 x5) ∧
    ((mkExt t x1 x2 x3 x4 x5).setCol "ema_slow" y = mkExt t x1 y x3 x4 x5) ∧
    ((mkExt t x1 x2 x3 x4 x5).setCol "macd_line" y = mkExt t x1 x2 y x4 x5) ∧
    ((mkExt t x1 x2 x3 x4 x5).setCol "signal_line" y = mkExt t x1 x2 x3 y x5) ∧
    ((mkExt t x1 x2 x3 x4 x5).setCol "macd_histogram" y = mkExt t x1 x2 x3 x4 y) := by
  have hmem : ∀ r ∈ reservedNames, r ∈ (mkExt t x1 x2 x3 x4 x5).colNames := by
    intro r hr
    rw [colNames_mkExt]
    exact List.mem_append_right _ hr
  refine ⟨?_, ?_, ?_, ?_, ?_⟩
  · rw [setCol_eq_updateCols (hmem _ (by decide))]
    unfold mkExt
    congr 1
    exact (updateCols_ext t.cols hfresh x1 x2 x3 x4 x5 _).1
  · rw [setCol_eq_updateCols (hmem _ (by decide))]
    unfold mkExt
    congr 1
    exact (updateCols_ext t.cols hfresh x1 x2 x3 x4 x5 _).2.1
  · rw [setCol_eq_updateCols (hmem _ (by decide))]
    unfold mkExt
    congr 1
    exact (updateCols_ext t.cols hfresh x1 x2 x3 x4 x5 _).2.2.1
  · rw [setCol_eq_updateCols (hmem _ (by decide))]
    unfold mkExt
    congr 1
    exact (updateCols_ext t.cols hfresh x1 x2 x3 x4 x5 _).2.2.2.1
  · rw [setCol_eq_updateCols (hmem _ (by decide))]
    unfold mkExt
    congr 1
    exact (updateCols_ext t.cols hfresh x1 x2 x3 x4 x5 _).2.2.2.2

/-- `setCell` of the three seeded columns on the extended table. -/
theorem setCell_mkExt (t : Table) (hfresh : ∀ r ∈ reservedNames, r ∉ t.colNames)
    (x1 x2 x3 x4 x5 : List Val) (i : ℕ) (v : Val) :
    ((mkExt t x1 x2 x3 x4 x5).setCell i "ema_fast" v = mkExt t (x1.set i v) x2 x3 x4 x5) ∧
    ((mkExt t x1 x2 x3 x4 x5).setCell i "ema_slow" v = mkExt t x1 (x2.set i v) x3 x4 x5) ∧
    ((mkExt t x1 x2 x3 x4 x5).setCell i "signal_line" v = mkExt t x1 x2 x3 (x4.set i v) x5) := by
  refine ⟨?_, ?_, ?_⟩ <;>
    (unfold Table.setCell mkExt
     congr 1)
  · exact (updateCols_ext t.cols hfresh x1 x2 x3 x4 x5 _).1
  · exact (updateCols_ext t.cols hfresh x1 x2 x3 x4 x5 _).2.1
  · exact (updateCols_ext t.cols hfresh x1 x2 x3 x4 x5 _).2.2.2.1

theorem setCol_notMem_eq (t : Table) {c : String} (xs : List Val) (h : c ∉ t.colNames) :
    t.setCol c xs = { labels := t.labels, cols := t.cols ++ [(c, xs)] } := by
  unfold Table.setCol
  have hx : ¬ t.colNames.contains c = true := fun hx => h ((Table.contains_iff _ _).mp hx)
  rw [if_neg hx]

theorem notMem_colNames_append (t : Table) {c : String} (hc : c ∉ t.colNames)
    {l : List (String × List Val)} (hl : c ∉ l.map Prod.fst) :
    c ∉ (Table.mk t.labels (t.cols ++ l)).colNames := by
  unfold Table.colNames
  simp only
  rw [List.map_append]
  intro h
  rcases List.mem_append.mp h with h | h
  · exact hc h
  · exact hl h

/-- The five `pd.NA` column creations at the head of `calculate_macd`. -/
theorem setCol_chain (t : Table) (hfresh : ∀ r ∈ reservedNames, r ∉ t.colNames) (m : ℕ) :
    ((((t.setCol "ema_fast" (List.replicate m none)).setCol "ema_slow"
        (List.replicate m none)).setCol "macd_line"
        (List.replicate m none)).setCol "signal_line"
        (List.replicate m none)).setCol "macd_histogram" (List.replicate m none) =
      mkExt t (List.replicate m none) (List.replicate m none) (List.replicate m none)
        (List.replicate m none) (List.replicate m none) := by
  have h2 : ("ema_slow" : String) ∉
      (Table.mk t.labels (t.cols ++ [("ema_fast", List.replicate m none)])).colNames :=
    notMem_colNames_append t (hfresh _ (by decide)) (by simp)
  have h3 : ("macd_line" : String) ∉
      (Table.mk t.labels (t.cols ++ [("ema_fast", List.replicate m none),
        ("ema_slow", List.replicate m none)])).colNames :=
    notMem_colNames_append t (hfresh _ (by decide)) (by simp)
  have h4 : ("signal_line" : String) ∉
      (Table.mk t.labels (t.cols ++ [("ema_fast", List.replicate m none),
        ("ema_slow", List.replicate m none), ("macd_line", List.replicate m none)])).colNames :=
    notMem_colNames_append t (hfresh _ (by decide)) (by simp)
  have h5 : ("macd_histogram" : String) ∉
      (Table.mk t.labels (t.cols ++ [("ema_fast", List.replicate m none),
        ("ema_slow", List.replicate m none), ("macd_line", List.replicate m none),
        ("signal_line", List.replicate m none)])).colNames :=
    notMem_colNames_append t (hfresh _ (by decide)) (by simp)
  rw [setCol_notMem_eq t _ (hfresh _ (by decide))]
  rw [setCol_notMem_eq _ _ h2]
  simp only [List.append_assoc, List.singleton_append, List.cons_append, List.nil_append]
  rw [setCol_notMem_eq _ _ h3]
  simp only [List.append_assoc, List.singleton_append, List.cons_append, List.nil_append]
  rw [setCol_notMem_eq _ _ h4]
  simp only [List.append_assoc, List.singleton_append, List.cons_append, List.nil_append]
  rw [setCol_notMem_eq _ _ h5]
  unfold mkExt
  congr 1
  simp [List.append_assoc]

/-- Dropping the two intermediate EMA columns from the extended table. -/
theorem dropCols_mkExt (t : Table) (hfresh : ∀ r ∈ reservedNames, r ∉ t.colNames)
    (x1 x2 x3 x4 x5 : List Val) :
    (mkExt t x1 x2 x3 x4 x5).dropCols ["ema_fast", "ema_slow"] =
      { labels := t.labels,
        cols := t.cols ++ [("macd_line", x3), ("signal_line", x4),
                           ("macd_histogram", x5)] } := by
  unfold Table.dropCols mkExt
  simp only
  congr 1
  rw [List.filter_append]
  congr 1
  · rw [List.filter_eq_self]
    intro p hp
    have h1 : p.1 ≠ "ema_fast" :=
      fun h => hfresh "ema_fast" (by decide) (h ▸ List.mem_map.mpr ⟨p, hp, rfl⟩)
    have h2 : p.1 ≠ "ema_slow" :=
      fun h => hfresh "ema_slow" (by decide) (h ▸ List.mem_map.mpr ⟨p, hp, rfl⟩)
    simp [h1, h2]

/-- Python slicing with natural bounds inside the list. -/
theorem pySlice_nat (xs : List Val) (a b : ℕ) (ha : a ≤ xs.length)
    (hb : b ≤ xs.length) :
    pySlice xs (a : Int) (b : Int) = (xs.take b).drop a := by
  unfold pySlice
  simp only
  rw [if_neg (by omega), if_neg (by omega)]
  rw [show (min (b : Int) ((xs.length : ℕ) : Int)).toNat = b from by omega,
    show (min (a : Int) ((xs.length : ℕ) : Int)).toNat = a from by omega]

theorem smaSeededEma_length (mult : ℚ) (p : ℕ) (src : List Val) (hp : 1 ≤ p)
    (hpn : p ≤ src.length) :
    (smaSeededEma mult p src).length = src.length := by
  unfold smaSeededEma
  rw [List.length_append, List.length_replicate, List.length_cons, recTail_length,
    List.length_drop]
  omega

theorem macdLineL_length (F S : ℕ) (src : List Val) (hF : 1 ≤ F) (hS : 1 ≤ S)
    (h : max F S ≤ src.length) :
    (macdLineL F S src).length = src.length := by
  unfold macdLineL
  rw [List.length_append, List.length_replicate, List.length_zipWith,
    List.length_drop, List.length_drop,
    smaSeededEma_length _ _ _ hF (by omega), smaSeededEma_length _ _ _ hS (by omega)]
  omega

theorem signalLineL_length (F S G n : ℕ) (src : List Val) (hF : 1 ≤ F) (hS : 1 ≤ S)
    (h : max F S ≤ src.length) (hsrc : src.length = n) :
    (signalLineL F S G n src).length = n := by
  unfold signalLineL
  simp only []
  split
  · rename_i hcond
    rw [List.length_append, List.length_replicate, List.length_cons, recTail_length,
      List.length_drop, macdLineL_length F S src hF hS h, hsrc]
    omega
  · rw [List.length_replicate]

theorem histogramL_length (F S G n : ℕ) (src : List Val) (hF : 1 ≤ F) (hS : 1 ≤ S)
    (h : max F S ≤ src.length) (hsrc : src.length = n) :
    (histogramL F S G n src).length = n := by
  unfold histogramL
  simp only []
  rw [List.length_append, List.length_replicate, List.length_zipWith,
    List.length_drop, List.length_drop, macdLineL_length F S src hF hS h, hsrc,
    signalLineL_length F S G n src hF hS h hsrc]
  omega

theorem take_succ_set_replicate (n q : ℕ) (hq : q < n) (v : Val) :
    ((List.replicate n (none : Val)).set q v).take (q + 1) =
      List.replicate q none ++ [v] := by
  rw [take_set_self _ _ _ (by rw [List.length_replicate]; omega)]
  rw [List.take_replicate]
  congr 2
  omega

theorem take_set_replicate (n p : ℕ) (hp : 1 ≤ p) (hpn : p ≤ n) (v : Val) :
    ((List.replicate n (none : Val)).set (p - 1) v).take p =
      List.replicate (p - 1) none ++ [v] := by
  obtain ⟨q, rfl⟩ : ∃ q, p = q + 1 := ⟨p - 1, by omega⟩
  rw [show q + 1 - 1 = q from rfl]
  exact take_succ_set_replicate n q (by omega) v

theorem seeded_ema_eq (mult : ℚ) (p n : ℕ) (hp : 1 ≤ p) (hpn : p ≤ n) (src : List Val)
    (hlen : src.length = n) :
    ((List.replicate n (none : Val)).set (p - 1) (seriesMean (src.take p))).take p ++
      recTail (blend mult)
        (((List.replicate n (none : Val)).set (p - 1) (seriesMean (src.take p))).getD (p - 1) none)
        (src.drop p) = smaSeededEma mult p src := by
  rw [take_set_replicate n p hp hpn, getD_set_self _ _ _ _ (by rw [List.length_replicate]; omega)]
  unfold smaSeededEma
  simp [List.append_assoc]

theorem exceptBind_pure {e α β : Type} (x : α) (f : α → Except e β) :
    (pure x : Except e α) >>= f = f x := rfl

/-- The master characterization of `calculate_macd` on a standard table with
fresh working-column names, positive periods, and at least `max F S` rows:
it succeeds and appends exactly the three pure result columns. -/
theorem calculate_macd_spec (t : Table) (n F S G : ℕ) (column : String) (src : List Val)
    (hStd : Std t n) (hsrc : t.getCol column = some src)
    (hfresh : ∀ r ∈ reservedNames, r ∉ t.colNames)
    (hF : 1 ≤ F) (hS : 1 ≤ S) (hG : 1 ≤ G) (hn : max F S ≤ n) :
    calculate_macd t F S G column =
      .ok { labels := t.labels,
            cols := t.cols ++ [("macd_line", macdLineL F S src),
                               ("signal_line", signalLineL F S G n src),
                               ("macd_histogram", histogramL F S G n src)] } := by
  have hnum : t.numRows = n := Table.numRows_of_std hStd
  have hsrclen : src.length = n := Table.length_of_getCol hStd hsrc
  have hcolnr : column ∉ reservedNames :=
    fun h => hfresh column h (Table.mem_colNames_of_getCol t hsrc)
  have hcf : column ≠ "ema_fast" := fun h => hcolnr (h ▸ by decide)
  have hcs : column ≠ "ema_slow" := fun h => hcolnr (h ▸ by decide)
  have hrepl : (List.replicate n (none : Val)).length = n := List.length_replicate n none
  simp only [calculate_macd]
  simp only [Table.numRows_setCol, hnum]
  rw [setCol_chain t hfresh n]
  rw [getCol_mkExt_other hcolnr, hsrc]
  simp only [exceptBind_ok]
  -- fast seed
  rw [show ((F : ℕ) : Int) - 1 = ((F - 1 : ℕ) : Int) from by omega]
  have hstd5 : Std (mkExt t (List.replicate n none) (List.replicate n none)
      (List.replicate n none) (List.replicate n none) (List.replicate n none)) n :=
    std_mkExt hStd hfresh hrepl hrepl hrepl hrepl hrepl
  rw [Table.locSet_std hstd5.1
    (by rw [colNames_mkExt]; exact List.mem_append_right _ (by decide))
    (show F - 1 < n by omega) _]
  rw [(setCell_mkExt t hfresh _ _ _ _ _ (F - 1) _).1]
  simp only [Table.numRows_setCell, numRows_mkExt, hnum]
  have hlen0 : ((List.replicate n (none : Val)).set (F - 1)
      (seriesMean (List.take F src))).length = n := by
    rw [List.length_set, List.length_replicate]
  have hstdE0 : Std (mkExt t ((List.replicate n none).set (F - 1)
      (seriesMean (List.take F src))) (List.replicate n none) (List.replicate n none)
      (List.replicate n none) (List.replicate n none)) n :=
    std_mkExt hStd hfresh hlen0 hrepl hrepl hrepl hrepl
  rw [emaLoop_spec column "ema_fast" hcf (2 / ((F : ℚ) + 1)) n n F (by omega) hF _ src _
    hstdE0 (by rw [getCol_mkExt_other hcolnr]; exact hsrc)
    ((getCol_mkExt_of_fresh hfresh _ _ _ _ _).1.1)]
  simp only [exceptBind_ok]
  rw [(setCol_mkExt t hfresh _ _ _ _ _ _).1]
  rw [seeded_ema_eq (2 / ((F : ℚ) + 1)) F n hF (by omega) src hsrclen]
  -- slow EMA
  have hEFlen : (smaSeededEma (2 / ((F : ℚ) + 1)) F src).length = n := by
    rw [smaSeededEma_length _ _ _ hF (by omega), hsrclen]
  rw [getCol_mkExt_other hcolnr, hsrc]
  simp only []
  rw [show ((S : ℕ) : Int) - 1 = ((S - 1 : ℕ) : Int) from by omega]
  have hstdEF : Std (mkExt t (smaSeededEma (2 / ((F : ℚ) + 1)) F src)
      (List.replicate n none) (List.replicate n none) (List.replicate n none)
      (List.replicate n none)) n :=
    std_mkExt hStd hfresh hEFlen hrepl hrepl hrepl hrepl
  rw [Table.locSet_std hstdEF.1
    (by rw [colNames_mkExt]; exact List.mem_append_right _ (by decide))
    (show S - 1 < n by omega) _]
  rw [(setCell_mkExt t hfresh _ _ _ _ _ (S - 1) _).2.1]
  simp only [Table.numRows_setCell, numRows_mkExt, hnum]
  have hlen1 : ((List.replicate n (none : Val)).set (S - 1)
      (seriesMean (List.take S src))).length = n := by
    rw [List.length_set, List.length_replicate]
  have hstdE1 : Std (mkExt t (smaSeededEma (2 / ((F : ℚ) + 1)) F src)
      ((List.replicate n none).set (S - 1) (seriesMean (List.take S src)))
      (List.replicate n none) (List.replicate n none) (List.replicate n none)) n :=
    std_mkExt hStd hfresh hEFlen hlen1 hrepl hrepl hrepl
  rw [emaLoop_spec column "ema_slow" hcs (2 / ((S : ℚ) + 1)) n n S (by omega) hS _ src _
    hstdE1 (by rw [getCol_mkExt_other hcolnr]; exact hsrc)
    ((getCol_mkExt_of_fresh hfresh _ _ _ _ _).1.2)]
  simp only [exceptBind_ok]
  rw [(setCol_mkExt t hfresh _ _ _ _ _ _).2.1]
  rw [seeded_ema_eq (2 / ((S : ℚ) + 1)) S n hS (by omega) src hsrclen]
  -- macd line
  have hESlen : (smaSeededEma (2 / ((S : ℚ) + 1)) S src).length = n := by
    rw [smaSeededEma_length _ _ _ hS (by omega), hsrclen]
  simp only [numRows_mkExt, hnum]
  have hstdE2 : Std (mkExt t (smaSeededEma (2 / ((F : ℚ) + 1)) F src)
      (smaSeededEma (2 / ((S : ℚ) + 1)) S src) (List.replicate n none)
      (List.replicate n none) (List.replicate n none)) n :=
    std_mkExt hStd hfresh hEFlen hESlen hrepl hrepl hrepl
  rw [macdLoop_spec n n (S - 1) (by omega) _ _ _ _ hstdE2
    ((getCol_mkExt_of_fresh hfresh _ _ _ _ _).1.1)
    ((getCol_mkExt_of_fresh hfresh _ _ _ _ _).1.2)
    ((getCol_mkExt_of_fresh hfresh _ _ _ _ _).2.1.1)]
  simp only [exceptBind_ok]
  rw [(setCol_mkExt t hfresh _ _ _ _ _ _).2.2.1]
  have hMLeq : (List.replicate n (none : Val)).take (S - 1) ++
      List.zipWith vSub ((smaSeededEma (2 / ((F : ℚ) + 1)) F src).drop (S - 1))
        ((smaSeededEma (2 / ((S : ℚ) + 1)) S src).drop (S - 1)) = macdLineL F S src := by
    rw [List.take_replicate]
    unfold macdLineL
    congr 2
    omega
  rw [hMLeq]
  -- signal / histogram
  have hMLlen : (macdLineL F S src).length = n := by
    rw [macdLineL_length F S src hF hS (by omega), hsrclen]
  simp only [numRows_mkExt, hnum]
  rw [show ((F ⊔ S : ℕ) : Int) - 1 + ((G : ℕ) : Int) - 1 = ((F ⊔ S + G - 2 : ℕ) : Int)
    from by omega]
  have hstdE3 : Std (mkExt t (smaSeededEma (2 / ((F : ℚ) + 1)) F src)
      (smaSeededEma (2 / ((S : ℚ) + 1)) S src) (macdLineL F S src)
      (List.replicate n none) (List.replicate n none)) n :=
    std_mkExt hStd hfresh hEFlen hESlen hMLlen hrepl hrepl
  by_cases hbr : F ⊔ S + G - 2 < n
  · rw [if_pos (show ((F ⊔ S + G - 2 : ℕ) : Int) < (n : Int) from by exact_mod_cast hbr)]
    rw [(getCol_mkExt_of_fresh hfresh _ _ _ _ _).2.1.1]
    simp only []
    rw [show ((F ⊔ S : ℕ) : Int) - 1 = ((F ⊔ S - 1 : ℕ) : Int) from by omega]
    rw [show ((F ⊔ S + G - 2 : ℕ) : Int) + 1 = ((F ⊔ S + G - 1 : ℕ) : Int) from by omega]
    rw [pySlice_nat (macdLineL F S src) (F ⊔ S - 1) (F ⊔ S + G - 1) (by omega) (by omega)]
    rw [show List.filterMap id (((macdLineL F S src).take (F ⊔ S + G - 1)).drop (F ⊔ S - 1))
      = macdValid F S G src from rfl]
    by_cases hv : 0 < (macdValid F S G src).length
    · rw [if_pos hv]
      rw [Table.locSet_std hstdE3.1
        (by rw [colNames_mkExt]; exact List.mem_append_right _ (by decide))
        hbr _]
      rw [(setCell_mkExt t hfresh _ _ _ _ _ (F ⊔ S + G - 2) _).2.2]
      simp only [Table.numRows_setCell, numRows_mkExt, hnum]
      rw [show F ⊔ S + G - 1 = F ⊔ S + G - 2 + 1 from by omega]
      have hSL0len : ((List.replicate n (none : Val)).set (F ⊔ S + G - 2)
          (some ((macdValid F S G src).sum / ((macdValid F S G src).length : ℚ)))).length = n := by
        rw [List.length_set, List.length_replicate]
      have hstdE4 : Std (mkExt t (smaSeededEma (2 / ((F : ℚ) + 1)) F src)
          (smaSeededEma (2 / ((S : ℚ) + 1)) S src) (macdLineL F S src)
          ((List.replicate n none).set (F ⊔ S + G - 2)
            (some ((macdValid F S G src).sum / ((macdValid F S G src).length : ℚ))))
          (List.replicate n none)) n :=
        std_mkExt hStd hfresh hEFlen hESlen hMLlen hSL0len hrepl
      rw [signalLoop_eq]
      rw [emaLoop_spec "macd_line" "signal_line" (by decide) (2 / ((G : ℚ) + 1)) n n
        (F ⊔ S + G - 2 + 1) (by omega) (by omega) _ _ _
        hstdE4 ((getCol_mkExt_of_fresh hfresh _ _ _ _ _).2.1.1)
        ((getCol_mkExt_of_fresh hfresh _ _ _ _ _).2.1.2)]
      simp only [exceptBind_ok]
      rw [(setCol_mkExt t hfresh _ _ _ _ _ _).2.2.2.1]
      rw [show F ⊔ S + G - 2 + 1 - 1 = F ⊔ S + G - 2 from rfl]
      rw [take_succ_set_replicate n (F ⊔ S + G - 2) hbr _]
      rw [getD_set_self _ _ _ _ (by rw [List.length_replicate]; omega)]
      have hSLeq : List.replicate (F ⊔ S + G - 2) (none : Val) ++
          [some ((macdValid F S G src).sum / ((macdValid F S G src).length : ℚ))] ++
          recTail (blend (2 / ((G : ℚ) + 1)))
            (some ((macdValid F S G src).sum / ((macdValid F S G src).length : ℚ)))
            ((macdLineL F S src).drop (F ⊔ S + G - 2 + 1)) = signalLineL F S G n src := by
        unfold signalLineL
        simp only []
        rw [if_pos ⟨hbr, hv⟩]
        simp [List.append_assoc]
      rw [hSLeq]
      simp only [numRows_mkExt, hnum]
      have hSLlen : (signalLineL F S G n src).length = n :=
        signalLineL_length F S G n src hF hS (by omega) hsrclen
      have hstdE5 : Std (mkExt t (smaSeededEma (2 / ((F : ℚ) + 1)) F src)
          (smaSeededEma (2 / ((S : ℚ) + 1)) S src) (macdLineL F S src)
          (signalLineL F S G n src) (List.replicate n none)) n :=
        std_mkExt hStd hfresh hEFlen hESlen hMLlen hSLlen hrepl
      rw [histLoop_spec n n (F ⊔ S + G - 2) (by omega) _ _ _ _ hstdE5
        ((getCol_mkExt_of_fresh hfresh _ _ _ _ _).2.1.1)
        ((getCol_mkExt_of_fresh hfresh _ _ _ _ _).2.1.2)
        ((getCol_mkExt_of_fresh hfresh _ _ _ _ _).2.2)]
      simp only [exceptBind_ok]
      rw [(setCol_mkExt t hfresh _ _ _ _ _ _).2.2.2.2]
      rw [List.take_replicate]
      rw [show List.replicate (min (F ⊔ S + G - 2) n) (none : Val) ++
          List.zipWith vSub ((macdLineL F S src).drop (F ⊔ S + G - 2))
            ((signalLineL F S G n src).drop (F ⊔ S + G - 2)) = histogramL F S G n src from rfl]
      rw [dropCols_mkExt t hfresh]
      rfl
    · rw [if_neg hv]
      have hSLneg : signalLineL F S G n src = List.replicate n none := by
        unfold signalLineL
        simp only []
        rw [if_neg (fun hand => hv hand.2)]
      simp only [exceptBind_pure, numRows_mkExt, hnum]
      rw [histLoop_spec n n (F ⊔ S + G - 2) (by omega) _ _ _ _ hstdE3
        ((getCol_mkExt_of_fresh hfresh _ _ _ _ _).2.1.1)
        ((getCol_mkExt_of_fresh hfresh _ _ _ _ _).2.1.2)
        ((getCol_mkExt_of_fresh hfresh _ _ _ _ _).2.2)]
      simp only [exceptBind_ok]
      rw [(setCol_mkExt t hfresh _ _ _ _ _ _).2.2.2.2]
      rw [List.take_replicate]
      rw [dropCols_mkExt t hfresh]
      rw [show histogramL F S G n src = List.replicate (min (F ⊔ S + G - 2) n) (none : Val) ++
        List.zipWith vSub ((macdLineL F S src).drop (F ⊔ S + G - 2))
          ((signalLineL F S G n src).drop (F ⊔ S + G - 2)) from rfl]
      rw [hSLneg]
      rfl
  · rw [if_neg (show ¬ (((F ⊔ S + G - 2 : ℕ) : Int) < (n : Int)) from by exact_mod_cast hbr)]
    have hSLneg : signalLineL F S G n src = List.replicate n none := by
      unfold signalLineL
      simp only []
      rw [if_neg (fun hand => hbr hand.1)]
    simp only [exceptBind_pure, numRows_mkExt, hnum]
    rw [histLoop_spec n n (F ⊔ S + G - 2) (by omega) _ _ _ _ hstdE3
      ((getCol_mkExt_of_fresh hfresh _ _ _ _ _).2.1.1)
      ((getCol_mkExt_of_fresh hfresh _ _ _ _ _).2.1.2)
      ((getCol_mkExt_of_fresh hfresh _ _ _ _ _).2.2)]
    simp only [exceptBind_ok]
    rw [(setCol_mkExt t hfresh _ _ _ _ _ _).2.2.2.2]
    rw [List.take_replicate]
    rw [dropCols_mkExt t hfresh]
    rw [show histogramL F S G n src = List.replicate (min (F ⊔ S + G - 2) n) (none : Val) ++
      List.zipWith vSub ((macdLineL F S src).drop (F ⊔ S + G - 2))
        ((signalLineL F S G n src).drop (F ⊔ S + G - 2)) from rfl]
    rw [hSLneg]
    rfl

/-! ## Decimal representation is injective (column names embed the period) -/

theorem toDigitsCore_acc (b : ℕ) (hb : 2 ≤ b) :
    ∀ (f n : ℕ) (l : List Char), n < f →
      Nat.toDigitsCore b f n l = Nat.toDigitsCore b f n [] ++ l := by
  intro f
  induction f with
  | zero => intro n l h; omega
  | succ f ih =>
      intro n l h
      simp only [Nat.toDigitsCore]
      by_cases h0 : n / b = 0
      · rw [if_pos h0, if_pos h0]
        rfl
      · rw [if_neg h0, if_neg h0]
        have hnpos : 0 < n := by
          rcases Nat.eq_zero_or_pos n with hz | hz
          · exact absurd (by rw [hz]; simp) h0
          · exact hz
        have hlt : n / b < f := by
          have h1 : n / b < n := Nat.div_lt_self hnpos (by omega)
          omega
        rw [ih (n / b) (Nat.digitChar (n % b) :: l) hlt,
          ih (n / b) [Nat.digitChar (n % b)] hlt]
        rw [List.append_assoc]
        rfl

theorem toDigitsCore_eq_digits (n : ℕ) :
    ∀ (f : ℕ), 0 < n → n < f →
      Nat.toDigitsCore 10 f n [] = ((Nat.digits 10 n).map Nat.digitChar).reverse := by
  induction n using Nat.strong_induction_on with
  | _ n ihn =>
      intro f hn hf
      cases f with
      | zero => omega
      | succ f =>
          simp only [Nat.toDigitsCore]
          by_cases h0 : n / 10 = 0
          · rw [if_pos h0]
            have hlt : n < 10 := (Nat.div_eq_zero_iff (by omega)).mp h0
            rw [Nat.digits_of_lt 10 n (by omega) hlt]
            rw [Nat.mod_eq_of_lt hlt]
            simp
          · rw [if_neg h0]
            have hdivpos : 0 < n / 10 := Nat.pos_of_ne_zero h0
            have hdivlt : n / 10 < f := by
              have : n / 10 < n := Nat.div_lt_self (by omega) (by omega)
              omega
            rw [toDigitsCore_acc 10 (by omega) f (n / 10) _ hdivlt]
            rw [ihn (n / 10) (by
              have : n / 10 < n := Nat.div_lt_self (by omega) (by omega)
              exact this) f hdivpos hdivlt]
            rw [Nat.digits_def' (by norm_num : (1 : ℕ) < 10) hn]
            rw [List.map_cons, List.reverse_cons]

theorem toDigits_eq_digits (n : ℕ) (hn : 0 < n) :
    Nat.toDigits 10 n = ((Nat.digits 10 n).map Nat.digitChar).reverse :=
  toDigitsCore_eq_digits n (n + 1) hn (by omega)

theorem digitChar_inj_range :
    ∀ d ∈ List.range 10, ∀ e ∈ List.range 10, Nat.digitChar d = Nat.digitChar e → d = e := by
  decide

theorem map_digitChar_inj : ∀ (l1 l2 : List ℕ), (∀ d ∈ l1, d < 10) → (∀ d ∈ l2, d < 10) →
    l1.map Nat.digitChar = l2.map Nat.digitChar → l1 = l2
  | [], [], _, _, _ => rfl
  | [], _ :: _, _, _, h => by simp at h
  | _ :: _, [], _, _, h => by simp at h
  | d :: l1, e :: l2, h1, h2, h => by
      rw [List.map_cons, List.map_cons] at h
      have hde : d = e :=
        digitChar_inj_range d (List.mem_range.mpr (h1 d (List.mem_cons_self _ _)))
          e (List.mem_range.mpr (h2 e (List.mem_cons_self _ _)))
          (List.cons.injEq _ _ _ _ ▸ h).1
      rw [hde, map_digitChar_inj l1 l2
        (fun x hx => h1 x (List.mem_cons_of_mem _ hx))
        (fun x hx => h2 x (List.mem_cons_of_mem _ hx))
        (List.cons.injEq _ _ _ _ ▸ h).2]

theorem natRepr_injective (m n : ℕ) (h : Nat.repr m = Nat.repr n) : m = n := by
  have h2 : Nat.toDigits 10 m = Nat.toDigits 10 n := by
    have := congrArg String.data h
    simpa [Nat.repr, List.asString] using this
  rcases Nat.eq_zero_or_pos m with hm | hm
  · rcases Nat.eq_zero_or_pos n with hn | hn
    · omega
    · exfalso
      subst hm
      rw [show Nat.toDigits 10 0 = ['0'] from rfl, toDigits_eq_digits n hn] at h2
      have h3 : (Nat.digits 10 n).map Nat.digitChar = ['0'] := by
        have := congrArg List.reverse h2
        simpa using this.symm
      have h4 : Nat.digits 10 n = [0] :=
        map_digitChar_inj _ [0] (fun d hd => Nat.digits_lt_base (by norm_num) hd)
          (by simp) (by simpa using h3)
      have h5 : n = Nat.ofDigits 10 (Nat.digits 10 n) := (Nat.ofDigits_digits 10 n).symm
      rw [h4] at h5
      simp [Nat.ofDigits] at h5
      omega
  · rcases Nat.eq_zero_or_pos n with hn | hn
    · exfalso
      subst hn
      rw [show Nat.toDigits 10 0 = ['0'] from rfl, toDigits_eq_digits m hm] at h2
      have h3 : (Nat.digits 10 m).map Nat.digitChar = ['0'] := by
        have := congrArg List.reverse h2
        simpa using this
      have h4 : Nat.digits 10 m = [0] :=
        map_digitChar_inj _ [0] (fun d hd => Nat.digits_lt_base (by norm_num) hd)
          (by simp) (by simpa using h3)
      have h5 : m = Nat.ofDigits 10 (Nat.digits 10 m) := (Nat.ofDigits_digits 10 m).symm
      rw [h4] at h5
      simp [Nat.ofDigits] at h5
      omega
    · rw [toDigits_eq_digits m hm, toDigits_eq_digits n hn] at h2
      have h3 := List.reverse_injective h2
      have h4 := map_digitChar_inj _ _ (fun d hd => Nat.digits_lt_base (by norm_num) hd)
        (fun d hd => Nat.digits_lt_base (by norm_num) hd) h3
      have h5 := congrArg (Nat.ofDigits 10) h4
      rwa [Nat.ofDigits_digits, Nat.ofDigits_digits] at h5

theorem periodName_inj (pre : String) (P Q : ℕ) (h : pre ++ toString P = pre ++ toString Q) :
    P = Q := by
  have hdata := congrArg String.data h
  rw [String.data_append, String.data_append] at hdata
  have h2 : (toString P).data = (toString Q).data := List.append_cancel_left hdata
  exact natRepr_injective P Q (String.ext h2)

theorem calculate_rsi_eq {t : Table} {close : List Val} (p : ℕ)
    (hclose : t.getCol "close" = some close) :
    calculate_rsi t p = .ok (t.setCol ("rsi_" ++ toString p) (rsiColumn p close)) := by
  unfold calculate_rsi
  rw [hclose]
  rfl

theorem rollingMean_length (p : ℕ) (xs : List Val) :
    (rollingMean p xs).length = xs.length := by
  unfold rollingMean
  rw [List.length_map, List.length_range]

theorem rollingMean_getD (p : ℕ) (xs : List Val) (i : ℕ) (h : i < xs.length) :
    (rollingMean p xs).getD i none =
      if p = 0 ∨ i + 1 < p then none
      else
        if (((xs.take (i + 1)).drop (i + 1 - p)).filterMap id).length =
            ((xs.take (i + 1)).drop (i + 1 - p)).length then
          some ((((xs.take (i + 1)).drop (i + 1 - p)).filterMap id).sum / (p : ℚ))
        else none := by
  unfold rollingMean
  rw [List.getD_eq_getElem?_getD, List.getElem?_map, List.getElem?_range h]
  rfl

theorem getD_eq_none_of_le {α : Type} {l : List α} {i : ℕ} (h : l.length ≤ i) (d : α) :
    l.getD i d = d := by
  rw [List.getD_eq_getElem?_getD, List.getElem?_eq_none h]
  rfl

theorem getD_some_lt_length {l : List Val} {i : ℕ} {v : ℚ}
    (h : l.getD i none = some v) : i < l.length := by
  by_contra hc
  rw [getD_eq_none_of_le (by omega) none] at h
  exact Option.noConfusion h

theorem filterMap_id_length_eq (w : List Val) :
    (w.filterMap id).length = w.length ↔ ∀ v ∈ w, v.isSome := by
  induction w with
  | nil => simp
  | cons x rest ih =>
      cases x with
      | none =>
          rw [List.filterMap_cons_none (by rfl)]
          constructor
          · intro h
            exfalso
            have := List.length_filterMap_le id rest
            rw [List.length_cons] at h
            omega
          · intro h
            exact absurd (h none (List.mem_cons_self _ _)) (by simp)
      | some q =>
          rw [List.filterMap_cons_some (by rfl)]
          constructor
          · intro h
            intro v hv
            rcases List.mem_cons.mp hv with hv | hv
            · rw [hv]; rfl
            · rw [List.length_cons, List.length_cons] at h
              exact (ih.mp (by omega)) v hv
          · intro h
            rw [List.length_cons, List.length_cons]
            rw [ih.mpr fun v hv => h v (List.mem_cons_of_mem _ hv)]

theorem window_length (xs : List Val) (p i : ℕ) (h1 : i < xs.length) (h2 : i + 1 ≥ p) :
    ((xs.take (i + 1)).drop (i + 1 - p)).length = p := by
  rw [List.length_drop, List.length_take]
  omega

theorem diffS_length (xs : List Val) : (diffS xs).length = xs.length := by
  unfold diffS
  rw [List.length_map, List.length_range]

theorem diffS_getD (xs : List Val) (i : ℕ) (h : i < xs.length) :
    (diffS xs).getD i none =
      if i = 0 then none else vSub (xs.getD i none) (xs.getD (i - 1) none) := by
  unfold diffS
  rw [List.getD_eq_getElem?_getD, List.getElem?_map, List.getElem?_range h]
  rfl

theorem getD_map_cell (f : Val → Val) (xs : List Val) (i : ℕ) (h : i < xs.length) :
    (xs.map f).getD i none = f (xs.getD i none) := by
  rw [List.getD_eq_getElem?_getD, List.getElem?_map, List.getElem?_eq_getElem h,
    List.getD_eq_getElem?_getD, List.getElem?_eq_getElem h]
  rfl

theorem getD_zipWith_cell (f : Val → Val → Val) (xs ys : List Val) (i : ℕ)
    (h1 : i < xs.length) (h2 : i < ys.length) :
    (List.zipWith f xs ys).getD i none = f (xs.getD i none) (ys.getD i none) := by
  rw [List.getD_eq_getElem?_getD, List.getElem?_zipWith,
    List.getElem?_eq_getElem h1, List.getElem?_eq_getElem h2,
    List.getD_eq_getElem?_getD, List.getElem?_eq_getElem h1,
    List.getD_eq_getElem?_getD, List.getElem?_eq_getElem h2]
  rfl

theorem gainCell_some_nonneg (d : Val) : ∃ q, gainCell d = some q ∧ 0 ≤ q := by
  cases d with
  | none => exact ⟨0, rfl, le_refl 0⟩
  | some x =>
      by_cases h : 0 < x
      · exact ⟨x, by simp [gainCell, h], le_of_lt h⟩
      · exact ⟨0, by simp [gainCell, h], le_refl 0⟩

theorem lossCell_some_nonneg (d : Val) : ∃ q, lossCell d = some q ∧ 0 ≤ q := by
  cases d with
  | none => exact ⟨0, rfl, le_refl 0⟩
  | some x =>
      by_cases h : x < 0
      · exact ⟨-x, by simp [lossCell, h], by linarith⟩
      · exact ⟨0, by simp [lossCell, h], le_refl 0⟩

theorem gains_mem (close : List Val) : ∀ x ∈ gains close, ∃ q, x = some q ∧ 0 ≤ q := by
  intro x hx
  rcases List.mem_map.mp hx with ⟨d, _, rfl⟩
  rcases gainCell_some_nonneg d with ⟨q, hq, hq0⟩
  exact ⟨q, hq, hq0⟩

theorem losses_mem (close : List Val) : ∀ x ∈ losses close, ∃ q, x = some q ∧ 0 ≤ q := by
  intro x hx
  rcases List.mem_map.mp hx with ⟨d, _, rfl⟩
  rcases lossCell_some_nonneg d with ⟨q, hq, hq0⟩
  exact ⟨q, hq, hq0⟩

theorem rollingMean_nonneg {p : ℕ} {xs : List Val}
    (hxs : ∀ x ∈ xs, ∃ q, x = some q ∧ 0 ≤ q) {i : ℕ} {v : ℚ}
    (h : (rollingMean p xs).getD i none = some v) : 0 ≤ v := by
  have hi : i < xs.length := by
    have := getD_some_lt_length h
    rwa [rollingMean_length] at this
  rw [rollingMean_getD p xs i hi] at h
  by_cases hc : p = 0 ∨ i + 1 < p
  · rw [if_pos hc] at h; exact Option.noConfusion h
  · rw [if_neg hc] at h
    by_cases hall : (((xs.take (i + 1)).drop (i + 1 - p)).filterMap id).length =
        ((xs.take (i + 1)).drop (i + 1 - p)).length
    · rw [if_pos hall] at h
      have hv : v = (((xs.take (i + 1)).drop (i + 1 - p)).filterMap id).sum / (p : ℚ) :=
        (Option.some_inj.mp h).symm
      rw [hv]
      apply div_nonneg
      · apply List.sum_nonneg
        intro q hq
        rcases List.mem_filterMap.mp hq with ⟨x, hxw, hxq⟩
        have hxmem : x ∈ xs :=
          List.mem_of_mem_take (List.mem_of_mem_drop hxw)
        rcases hxs x hxmem with ⟨q', hq', hq0⟩
        rw [hq'] at hxq
        have hqq : q' = q := Option.some_inj.mp hxq
        exact hqq ▸ hq0
      · positivity
    · rw [if_neg hall] at h; exact Option.noConfusion h

theorem rsiCell_none_left (l : Val) : rsiCell none l = none := by
  cases l <;> rfl

theorem rsiCell_none_right (g : Val) : rsiCell g none = none := by
  cases g <;> rfl

theorem rsiCell_zero_zero : rsiCell (some 0) (some 0) = none := by decide

theorem rsiCell_saturate (g : ℚ) (hg : 0 < g) : rsiCell (some g) (some 0) = some 100 := by
  unfold rsiCell FloatVal.ofVal
  rw [show FloatVal.div (.fin g) (.fin 0) = .posInf from by
    simp only [FloatVal.div]
    rw [if_pos trivial, if_neg (ne_of_gt hg), if_pos hg]]
  simp only [FloatVal.add, FloatVal.div, FloatVal.sub, FloatVal.toVal]
  norm_num

theorem rsiCell_pos_l (g l : ℚ) (hg : 0 ≤ g) (hl : 0 < l) :
    rsiCell (some g) (some l) = some (100 - 100 / (1 + g / l)) := by
  have hrs : 0 ≤ g / l := div_nonneg hg (le_of_lt hl)
  unfold rsiCell FloatVal.ofVal
  rw [show FloatVal.div (.fin g) (.fin l) = .fin (g / l) from by
    simp only [FloatVal.div]
    rw [if_neg (ne_of_gt hl)]]
  rw [show FloatVal.add (.fin 1) (.fin (g / l)) = .fin (1 + g / l) from rfl]
  rw [show FloatVal.div (.fin 100) (.fin (1 + g / l)) = .fin (100 / (1 + g / l)) from by
    simp only [FloatVal.div]
    rw [if_neg (by intro h0; linarith)]]
  rfl

theorem rsiCell_bounds (g l : ℚ) (hg : 0 ≤ g) (hl : 0 ≤ l) (v : ℚ)
    (h : rsiCell (some g) (some l) = some v) : 0 ≤ v ∧ v ≤ 100 := by
  rcases eq_or_lt_of_le hl with hl0 | hlpos
  · rcases eq_or_lt_of_le hg with hg0 | hgpos
    · rw [← hg0, ← hl0, rsiCell_zero_zero] at h
      exact Option.noConfusion h
    · rw [← hl0, rsiCell_saturate g hgpos] at h
      have hv := Option.some_inj.mp h
      constructor <;> linarith
  · rw [rsiCell_pos_l g l hg hlpos] at h
    have hv := Option.some_inj.mp h
    have hrs : 0 ≤ g / l := div_nonneg hg (le_of_lt hlpos)
    have hd1 : 100 / (1 + g / l) ≤ 100 := div_le_self (by norm_num) (by linarith)
    have hd0 : 0 ≤ 100 / (1 + g / l) := div_nonneg (by norm_num) (by linarith)
    constructor <;> linarith

theorem rsiCell_none_iff (g l : ℚ) (hg : 0 ≤ g) (hl : 0 ≤ l) :
    rsiCell (some g) (some l) = none ↔ g = 0 ∧ l = 0 := by
  constructor
  · intro h
    rcases eq_or_lt_of_le hl with hl0 | hlpos
    · rcases eq_or_lt_of_le hg with hg0 | hgpos
      · exact ⟨hg0.symm, hl0.symm⟩
      · rw [← hl0, rsiCell_saturate g hgpos] at h
        exact Option.noConfusion h
    · rw [rsiCell_pos_l g l hg hlpos] at h
      exact Option.noConfusion h
  · rintro ⟨rfl, rfl⟩
    exact rsiCell_zero_zero

theorem rollingMean_all_some {p : ℕ} {xs : List Val} (hp : 1 ≤ p)
    (hxs : ∀ x ∈ xs, x.isSome) {i : ℕ} (h1 : p - 1 ≤ i) (h2 : i < xs.length) :
    (rollingMean p xs).getD i none =
      some ((((xs.take (i + 1)).drop (i + 1 - p)).filterMap id).sum / (p : ℚ)) := by
  rw [rollingMean_getD p xs i h2, if_neg (by omega)]
  rw [if_pos ((filterMap_id_length_eq _).mpr (fun v hv =>
    hxs v (List.mem_of_mem_take (List.mem_of_mem_drop hv))))]

theorem rollingMean_getD_early {p : ℕ} {xs : List Val} {i : ℕ} (h : i + 1 < p ∨ p = 0) :
    (rollingMean p xs).getD i none = none := by
  by_cases h2 : i < xs.length
  · rw [rollingMean_getD p xs i h2, if_pos (by tauto)]
  · exact getD_eq_none_of_le (by rw [rollingMean_length]; omega) none

theorem gains_length (close : List Val) : (gains close).length = close.length := by
  unfold gains
  rw [List.length_map, diffS_length]

theorem losses_length (close : List Val) : (losses close).length = close.length := by
  unfold losses
  rw [List.length_map, diffS_length]

theorem avgGain_length (p : ℕ) (close : List Val) :
    (avgGain p close).length = close.length := by
  unfold avgGain
  rw [rollingMean_length, gains_length]

theorem avgLoss_length (p : ℕ) (close : List Val) :
    (avgLoss p close).length = close.length := by
  unfold avgLoss
  rw [rollingMean_length, losses_length]

theorem rsiColumn_getD (p : ℕ) (close : List Val) (i : ℕ) (h : i < close.length) :
    (rsiColumn p close).getD i none =
      rsiCell ((avgGain p close).getD i none) ((avgLoss p close).getD i none) := by
  unfold rsiColumn
  exact getD_zipWith_cell rsiCell _ _ i (by rw [avgGain_length]; omega)
    (by rw [avgLoss_length]; omega)

/-- A `getD` read inside a list whose members are all present is present. -/
theorem getD_isSome_of_forall {l : List Val} (h : ∀ x ∈ l, x.isSome) {i : ℕ}
    (hi : i < l.length) : (l.getD i none).isSome := by
  rw [List.getD_eq_getElem?_getD, List.getElem?_eq_getElem hi]
  exact h _ (List.getElem_mem hi)

/-- Reading an all-present column at an in-range index. -/
theorem getD_map_some (qs : List ℚ) {i : ℕ} (hi : i < qs.length) :
    (qs.map Option.some).getD i none = some (qs.getD i 0) := by
  rw [List.getD_eq_getElem?_getD, List.getElem?_map,
    List.getElem?_eq_getElem hi, List.getD_eq_getElem?_getD,
    List.getElem?_eq_getElem hi]
  rfl

/-- On a present observation from a present state of weight 1, one `ewm`
step is exactly the textbook EMA blend. -/
theorem ewmStep_some_one (alpha m c : ℚ) :
    ewmStep alpha (some m, 1) (some c) = (blend alpha (some c) (some m), 1) := by
  unfold ewmStep blend vAdd vMulC
  simp only []
  rw [show (1 * (1 - alpha) * m + alpha * c) / (1 * (1 - alpha) + alpha) =
    c * alpha + m * (1 - alpha) from by
      rw [show (1 : ℚ) * (1 - alpha) + alpha = 1 by ring, div_one]
      ring]

/-- On an all-present tail, the `ewm` stream from a present state of weight 1
is the plain blend recurrence. -/
theorem ewmGo_eq_recTail (alpha m : ℚ) (qs : List ℚ) :
    ewmGo alpha (some m, 1) (qs.map Option.some) =
      recTail (blend alpha) (some m) (qs.map Option.some) := by
  induction qs generalizing m with
  | nil => rfl
  | cons q rest ih =>
      rw [List.map_cons, ewmGo, recTail]
      rw [show ewmStep alpha (some m, 1) (some q) = (blend alpha (some q) (some m), 1) from
        ewmStep_some_one alpha m q]
      have hb : blend alpha (some q) (some m) = some (q * alpha + m * (1 - alpha)) := rfl
      rw [hb]
      exact congrArg _ (ih (q * alpha + m * (1 - alpha)))

/-- On an all-present series, `ewm(adjust=False).mean()` seeds with the first
observation and then follows the blend recurrence. -/
theorem ewmMean_some (alpha : ℚ) (q : ℚ) (qs : List ℚ) :
    ewmMean alpha ((q :: qs).map Option.some) =
      some q :: recTail (blend alpha) (some q) (qs.map Option.some) := by
  rw [List.map_cons]
  show (ewmStep alpha (none, 1) (some q)).1 ::
    ewmGo alpha (ewmStep alpha (none, 1) (some q)) (qs.map Option.some) = _
  rw [show ewmStep alpha (none, 1) (some q) = (some q, 1) from rfl]
  rw [ewmGo_eq_recTail]

theorem ewmMean_length (alpha : ℚ) (xs : List Val) :
    (ewmMean alpha xs).length = xs.length := by
  unfold ewmMean
  generalize (none, (1 : ℚ)) = st
  induction xs generalizing st with
  | nil => rfl
  | cons x rest ih => rw [ewmGo]; simpa using ih _

/-- C4.  The standalone EMA uses continuous seeding: on an all-present
`close` column it returns `ok`, the produced `ema_{period}` column is
all-present of the same length, its row 0 equals `close[0]`, and every later
row follows `ema[i] = alpha*close[i] + (1-alpha)*ema[i-1]` with
`alpha = 2/(period+1)`. -/
theorem spec_C4 (t : Table) (P : ℕ) (qs : List ℚ)
    (hsrc : t.getCol "close" = some (qs.map Option.some)) (hP : 1 ≤ P) :
    ∃ out E, calculate_ema t P = .ok out ∧
      out.getCol ("ema_" ++ toString P) = some E ∧
      E.length = qs.length ∧
      (∀ i < qs.length, (E.getD i none).isSome) ∧
      (0 < qs.length → E.getD 0 none = some (qs.getD 0 0)) ∧
      (∀ i, 0 < i → i < qs.length →
        E.getD i none =
          blend (2 / ((P : ℚ) + 1)) (some (qs.getD i 0)) (E.getD (i - 1) none)) := by
  set alpha : ℚ := 2 / ((P : ℚ) + 1) with halpha
  set E := ewmMean alpha (qs.map Option.some) with hE
  refine ⟨t.setCol ("ema_" ++ toString P) E, E, ?_, ?_, ?_, ?_, ?_, ?_⟩
  · unfold calculate_ema
    rw [hsrc]
    simp only []
    rw [if_neg (show ¬ P < 1 by omega)]
  · exact Table.getCol_setCol_self t _ E
  · rw [hE, ewmMean_length, List.length_map]
  · intro i hi
    cases qs with
    | nil => simp at hi
    | cons q rest =>
        rw [hE, ewmMean_some]
        have hmem : ∀ x ∈ some q :: recTail (blend alpha) (some q) (rest.map Option.some),
            x.isSome := by
          intro x hx
          rcases List.mem_cons.mp hx with hx | hx
          · rw [hx]; rfl
          · exact recTail_isSome _ (blend_isSome alpha) _ _ (by rfl)
              (by intro z hz; rcases List.mem_map.mp hz with ⟨w, _, hw⟩; rw [← hw]; rfl) x hx
        exact getD_isSome_of_forall hmem
          (by rw [List.length_cons, recTail_length, List.length_map]
              simpa using hi)
  · intro hn
    cases qs with
    | nil => simp at hn
    | cons q rest => rw [hE, ewmMean_some]; rfl
  · intro i hi0 hilen
    cases qs with
    | nil => simp at hilen
    | cons q rest =>
        rw [hE, ewmMean_some]
        obtain ⟨j, rfl⟩ : ∃ j, i = j + 1 := ⟨i - 1, by omega⟩
        have hjlen : j < rest.length := by
          rw [List.length_cons] at hilen; omega
        rw [List.getD_cons_succ]
        rw [recTail_getD _ _ _ j (by rw [List.length_map]; exact hjlen)]
        rw [getD_map_some rest hjlen]
        have hq : ((q :: rest).getD (j + 1) 0) = rest.getD j 0 := List.getD_cons_succ ..
        rw [hq]
        congr 1
        by_cases hj : j = 0
        · subst hj
          rw [if_pos rfl]
          rfl
        · rw [if_neg hj]
          rw [show j + 1 - 1 = j from rfl]
          obtain ⟨k, rfl⟩ : ∃ k, j = k + 1 := ⟨j - 1, by omega⟩
          rw [List.getD_cons_succ]
          simp

theorem rsiColumn_length (p : ℕ) (close : List Val) :
    (rsiColumn p close).length = close.length := by
  unfold rsiColumn
  rw [List.length_zipWith, avgGain_length, avgLoss_length, min_self]

/-- C1.  SMA: the produced `sma_{P}` column is as long as the table, absent
on rows `0..P-2`, equal to the window mean wherever the `P`-wide window is
fully present, and absent wherever the window has an absent entry. -/
theorem spec_C1 (t : Table) (n P : ℕ) (column : String) (src : List Val)
    (hStd : Std t n) (hsrc : t.getCol column = some src) (hP : 1 ≤ P) :
    ∃ out S, calculate_sma t P column = .ok out ∧
      out.getCol ("sma_" ++ toString P) = some S ∧
      S.length = n ∧
      (∀ i, i + 1 < P → S.getD i none = none) ∧
      (∀ i, P - 1 ≤ i → i < n →
        ((src.take (i + 1)).drop (i + 1 - P)).length = P ∧
        ((∀ x ∈ (src.take (i + 1)).drop (i + 1 - P), x.isSome) →
          S.getD i none =
            some (((((src.take (i + 1)).drop (i + 1 - P)).filterMap id).sum) / (P : ℚ))) ∧
        (none ∈ (src.take (i + 1)).drop (i + 1 - P) →
          S.getD i none = none)) := by
  have hlen : src.length = n := Table.length_of_getCol hStd hsrc
  refine ⟨t.setCol ("sma_" ++ toString P) (rollingMean P src), rollingMean P src,
    ?_, Table.getCol_setCol_self t _ _, ?_, ?_, ?_⟩
  · unfold calculate_sma
    rw [hsrc]
  · rw [rollingMean_length, hlen]
  · intro i hi
    exact rollingMean_getD_early (Or.inl hi)
  · intro i h1 h2
    have hisrc : i < src.length := by omega
    refine ⟨window_length src P i hisrc (by omega), ?_, ?_⟩
    · intro hall
      rw [rollingMean_getD P src i hisrc, if_neg (by omega),
        if_pos ((filterMap_id_length_eq _).mpr hall)]
    · intro hnone
      rw [rollingMean_getD P src i hisrc, if_neg (by omega),
        if_neg (fun hc => by
          have := (filterMap_id_length_eq _).mp hc none hnone
          simp at this)]

/-- C6.  RSI: every defined value of the produced `rsi_{P}` column lies in
`[0, 100]`, and a row with zero average loss and positive average gain is
exactly 100. -/
theorem spec_C6 (t : Table) (P : ℕ) (close : List Val)
    (hsrc : t.getCol "close" = some close) :
    ∃ out E, calculate_rsi t P = .ok out ∧
      out.getCol ("rsi_" ++ toString P) = some E ∧
      (∀ i v, E.getD i none = some v → 0 ≤ v ∧ v ≤ 100) ∧
      (∀ i g, i < close.length →
        (avgGain P close).getD i none = some g → 0 < g →
        (avgLoss P close).getD i none = some 0 →
        E.getD i none = some 100) := by
  refine ⟨t.setCol ("rsi_" ++ toString P) (rsiColumn P close), rsiColumn P close,
    calculate_rsi_eq P hsrc, Table.getCol_setCol_self t _ _, ?_, ?_⟩
  · intro i v hv
    have hi : i < close.length := by
      have := getD_some_lt_length hv
      rwa [rsiColumn_length] at this
    rw [rsiColumn_getD P close i hi] at hv
    rcases hg : (avgGain P close).getD i none with _ | g
    · rw [hg, rsiCell_none_left] at hv
      exact Option.noConfusion hv
    rcases hl : (avgLoss P close).getD i none with _ | l
    · rw [hg, hl, rsiCell_none_right] at hv
      exact Option.noConfusion hv
    rw [hg, hl] at hv
    have hg0 : 0 ≤ g := rollingMean_nonneg (gains_mem close) hg
    have hl0 : 0 ≤ l := rollingMean_nonneg (losses_mem close) hl
    exact rsiCell_bounds g l hg0 hl0 v hv
  · intro i g hi hg hgpos hl
    rw [rsiColumn_getD P close i hi, hg, hl]
    exact rsiCell_saturate g hgpos

/-- C7.  RSI: the computation returns `ok` (the degenerate division never
raises), and any row whose average gain and average loss are both zero gets
an absent value from the 0/0 relative strength. -/
theorem spec_C7 (t : Table) (P : ℕ) (close : List Val)
    (hsrc : t.getCol "close" = some close) :
    calculate_rsi t P = .ok (t.setCol ("rsi_" ++ toString P) (rsiColumn P close)) ∧
    (∀ i, i < close.length →
      (avgGain P close).getD i none = some 0 →
      (avgLoss P close).getD i none = some 0 →
      (rsiColumn P close).getD i none = none) := by
  refine ⟨calculate_rsi_eq P hsrc, ?_⟩
  intro i hi hg hl
  rw [rsiColumn_getD P close i hi, hg, hl]
  exact rsiCell_zero_zero

theorem diffS_wTwo : diffS [some 1, some 2] = [none, some 1] := by
  unfold diffS
  rw [show [some (1 : ℚ), some 2].length = 2 from rfl]
  rw [show List.range 2 = [0, 1] from rfl]
  rw [List.map_cons, List.map_cons, List.map_nil]
  norm_num [vSub]

theorem gains_wTwo : gains [some 1, some 2] = [some 0, some 1] := by
  unfold gains
  rw [diffS_wTwo]
  rw [List.map_cons, List.map_cons, List.map_nil]
  norm_num [gainCell]

theorem losses_wTwo : losses [some 1, some 2] = [some 0, some 0] := by
  unfold losses
  rw [diffS_wTwo]
  rw [List.map_cons, List.map_cons, List.map_nil]
  norm_num [lossCell]

theorem avgGain_wTwo : (avgGain 2 [some 1, some 2]).getD 1 none = some (1 / 2) := by
  unfold avgGain
  rw [gains_wTwo]
  rw [rollingMean_getD 2 _ 1 (by norm_num)]
  norm_num [show List.filterMap id [some (0 : ℚ), some 1] = [0, 1] from rfl]

theorem avgLoss_wTwo : (avgLoss 2 [some 1, some 2]).getD 1 none = some 0 := by
  unfold avgLoss
  rw [losses_wTwo]
  rw [rollingMean_getD 2 _ 1 (by norm_num)]
  norm_num [show List.filterMap id [some (0 : ℚ), some 0] = [0, 0] from rfl]

/-- C5 counterexample.  On the two-row table with prices 1, 2 and period 2,
the RSI value at row `P-1 = 1` is 100, not absent: the `where()` split turns
the absent first delta into a gain of 0 and a loss of 0, so the period-2
rolling means are already complete at row 1. -/
theorem counterexample_C5 :
    ∃ out E, calculate_rsi wTwo 2 = .ok out ∧
      out.getCol ("rsi_" ++ toString 2) = some E ∧
      E.getD (2 - 1) none = some 100 := by
  refine ⟨_, rsiColumn 2 [some 1, some 2], calculate_rsi_eq 2 rfl,
    Table.getCol_setCol_self _ _ _, ?_⟩
  rw [show (2 : ℕ) - 1 = 1 from rfl]
  rw [rsiColumn_getD 2 [some 1, some 2] 1 (by norm_num)]
  rw [avgGain_wTwo, avgLoss_wTwo]
  exact rsiCell_saturate (1 / 2) (by norm_num)

/-- C5 amended.  On an all-present price column: the first delta is absent,
but the gain and loss series replace that absence by 0 (pandas `where` on a
NaN comparison), so both rolling means are already defined at row `P-1`;
the RSI rows `0..P-2` are absent. -/
theorem amended_C5 (t : Table) (P : ℕ) (close : List Val)
    (hsrc : t.getCol "close" = some close) (hP : 1 ≤ P) (hPlen : P ≤ close.length)
    (hall : ∀ x ∈ close, x.isSome) :
    calculate_rsi t P = .ok (t.setCol ("rsi_" ++ toString P) (rsiColumn P close)) ∧
    (diffS close).getD 0 none = none ∧
    (gains close).getD 0 none = some 0 ∧
    (losses close).getD 0 none = some 0 ∧
    (∀ i, i + 1 < P → (rsiColumn P close).getD i none = none) ∧
    ((avgGain P close).getD (P - 1) none).isSome ∧
    ((avgLoss P close).getD (P - 1) none).isSome := by
  have hlen0 : 0 < close.length := by omega
  have hgall : ∀ x ∈ gains close, x.isSome := by
    intro x hx
    rcases gains_mem close x hx with ⟨q, hq, _⟩
    rw [hq]; rfl
  have hlall : ∀ x ∈ losses close, x.isSome := by
    intro x hx
    rcases losses_mem close x hx with ⟨q, hq, _⟩
    rw [hq]; rfl
  refine ⟨calculate_rsi_eq P hsrc, ?_, ?_, ?_, ?_, ?_, ?_⟩
  · rw [diffS_getD close 0 hlen0, if_pos rfl]
  · show ((diffS close).map gainCell).getD 0 none = some 0
    rw [getD_map_cell gainCell (diffS close) 0 (by rw [diffS_length]; omega)]
    rw [diffS_getD close 0 hlen0, if_pos rfl]
    rfl
  · show ((diffS close).map lossCell).getD 0 none = some 0
    rw [getD_map_cell lossCell (diffS close) 0 (by rw [diffS_length]; omega)]
    rw [diffS_getD close 0 hlen0, if_pos rfl]
    rfl
  · intro i hi
    have hic : i < close.length := by omega
    rw [rsiColumn_getD P close i hic]
    rw [show (avgGain P close).getD i none = none from
      rollingMean_getD_early (Or.inl hi)]
    exact rsiCell_none_left _
  · rw [show avgGain P close = rollingMean P (gains close) from rfl,
      rollingMean_all_some hP hgall (Nat.le_refl _)
        (by rw [gains_length]; omega)]
    rfl
  · rw [show avgLoss P close = rollingMean P (losses close) from rfl,
      rollingMean_all_some hP hlall (Nat.le_refl _)
        (by rw [losses_length]; omega)]
    rfl

/-- C2.  On a one-row table, MACD(1, 2, 1) does not keep the input's rows:
the `.loc` write of the slow-EMA seed at row label 1 enlarges the frame, so
the output has two rows where the input has one. -/
theorem bug_C2 :
    wOne.numRows = 1 ∧
    (calculate_macd wOne 1 2 1 "close").map Table.numRows = .ok 2 ∧
    (calculate_macd wOne 1 2 1 "close").map Table.labels = .ok [0, 1] :=
  ⟨rfl, rfl, rfl⟩

/-- C8.  Non-positive periods are not rejected: SMA and RSI with period 0,
and MACD with signal period 0, all return a table instead of failing. -/
theorem bug_C8 :
    (∃ out, calculate_sma wOne 0 "close" = .ok out) ∧
    (∃ out, calculate_rsi wOne 0 = .ok out) ∧
    (∃ out, calculate_macd wTwo 1 2 0 "close" = .ok out) :=
  ⟨⟨_, rfl⟩, ⟨_, rfl⟩, ⟨_, rfl⟩⟩

/-- C9 counterexample.  An input column named `ema_fast` is destroyed by
MACD: it is overwritten by the intermediate and then dropped, so the output
no longer has it. -/
theorem counterexample_C9 :
    "ema_fast" ∈ wEmaFast.colNames ∧
    (calculate_macd wEmaFast 1 1 1 "close").map Table.colNames =
      .ok ["close", "macd_line", "signal_line", "macd_histogram"] :=
  ⟨by decide, rfl⟩

/-- C9 amended.  Append-only behaviour holds under name freshness: when the
produced column name is not already an input column, SMA, EMA and RSI leave
the labels unchanged and return exactly the input columns followed by the one
new column; when the input table has none of the five reserved MACD names,
MACD leaves the labels unchanged, keeps the input columns as an unchanged
prefix, and appends exactly the three MACD columns. -/
theorem amended_C9 (t : Table) (n F S G P : ℕ) (column : String)
    (src close : List Val)
    (hStd : Std t n) (hsrc : t.getCol column = some src)
    (hclose : t.getCol "close" = some close)
    (hfresh : ∀ r ∈ reservedNames, r ∉ t.colNames)
    (hsma : ("sma_" ++ toString P) ∉ t.colNames)
    (hema : ("ema_" ++ toString P) ∉ t.colNames)
    (hrsi : ("rsi_" ++ toString P) ∉ t.colNames)
    (hP : 1 ≤ P)
    (hF : 1 ≤ F) (hS : 1 ≤ S) (hG : 1 ≤ G) (hn : max F S ≤ n) :
    (∃ out, calculate_sma t P column = .ok out ∧ out.labels = t.labels ∧
      out.cols = t.cols ++ [("sma_" ++ toString P, rollingMean P src)]) ∧
    (∃ out, calculate_ema t P = .ok out ∧ out.labels = t.labels ∧
      out.cols = t.cols ++
        [("ema_" ++ toString P, ewmMean (2 / ((P : ℚ) + 1)) close)]) ∧
    (∃ out, calculate_rsi t P = .ok out ∧ out.labels = t.labels ∧
      out.cols = t.cols ++ [("rsi_" ++ toString P, rsiColumn P close)]) ∧
    (∃ out, calculate_macd t F S G column = .ok out ∧
      out.labels = t.labels ∧
      out.cols.take t.cols.length = t.cols ∧
      out.colNames = t.colNames ++
        ["macd_line", "signal_line", "macd_histogram"]) := by
  refine ⟨?_, ?_, ?_, ?_⟩
  · refine ⟨t.setCol ("sma_" ++ toString P) (rollingMean P src), ?_,
      Table.labels_setCol t _ _, Table.cols_setCol_notMem t _ hsma⟩
    unfold calculate_sma
    rw [hsrc]
  · refine ⟨t.setCol ("ema_" ++ toString P) (ewmMean (2 / ((P : ℚ) + 1)) close), ?_,
      Table.labels_setCol t _ _, Table.cols_setCol_notMem t _ hema⟩
    unfold calculate_ema
    rw [hclose]
    simp only []
    rw [if_neg (show ¬ P < 1 by omega)]
  · exact ⟨t.setCol ("rsi_" ++ toString P) (rsiColumn P close),
      calculate_rsi_eq P hclose, Table.labels_setCol t _ _,
      Table.cols_setCol_notMem t _ hrsi⟩
  · refine ⟨_, calculate_macd_spec t n F S G column src hStd hsrc hfresh hF hS hG hn,
      rfl, ?_, ?_⟩
    · show (t.cols ++ _).take t.cols.length = t.cols
      exact List.take_left t.cols _
    · show (t.cols ++ _).map Prod.fst = _
      rw [List.map_append]
      rfl

/-- C10 counterexample.  MACD's output column names do not embed its
periods: two invocations with different period triples produce identically
named columns (which therefore cannot coexist). -/
theorem counterexample_C10 :
    (calculate_macd wOne 1 1 1 "close").map Table.colNames =
      .ok ["close", "macd_line", "signal_line", "macd_histogram"] ∧
    (calculate_macd wOne 1 1 2 "close").map Table.colNames =
      .ok ["close", "macd_line", "signal_line", "macd_histogram"] :=
  ⟨rfl, rfl⟩

/-- C10 amended.  The single-column indicators embed their period in the
produced column name (`sma_P`, `ema_P`, `rsi_P`), distinct periods give
distinct names, and two SMA invocations with different periods coexist as
separate columns of the final table. -/
theorem amended_C10 (t : Table) (P Q : ℕ) (column : String) (src : List Val)
    (hsrc : t.getCol column = some src) (hPQ : P ≠ Q)
    (hcol : column ≠ "sma_" ++ toString P) :
    ("sma_" ++ toString P ≠ "sma_" ++ toString Q) ∧
    ("ema_" ++ toString P ≠ "ema_" ++ toString Q) ∧
    ("rsi_" ++ toString P ≠ "rsi_" ++ toString Q) ∧
    ∃ out1 out2, calculate_sma t P column = .ok out1 ∧
      calculate_sma out1 Q column = .ok out2 ∧
      out2.getCol ("sma_" ++ toString P) = some (rollingMean P src) ∧
      out2.getCol ("sma_" ++ toString Q) = some (rollingMean Q src) := by
  have hPQs : ∀ pre : String, pre ++ toString P ≠ pre ++ toString Q := fun pre h =>
    hPQ (periodName_inj pre P Q h)
  refine ⟨hPQs _, hPQs _, hPQs _, ?_⟩
  have hsrc1 : (t.setCol ("sma_" ++ toString P) (rollingMean P src)).getCol column =
      some src := by
    rw [Table.getCol_setCol_ne t _ hcol, hsrc]
  refine ⟨t.setCol ("sma_" ++ toString P) (rollingMean P src),
    (t.setCol ("sma_" ++ toString P) (rollingMean P src)).setCol
      ("sma_" ++ toString Q) (rollingMean Q src), ?_, ?_, ?_, ?_⟩
  · unfold calculate_sma
    rw [hsrc]
  · unfold calculate_sma
    rw [hsrc1]
  · rw [Table.getCol_setCol_ne _ _ (hPQs "sma_")]
    exact Table.getCol_setCol_self _ _ _
  · exact Table.getCol_setCol_self _ _ _

theorem getD_drop {α : Type} (l : List α) (m j : ℕ) (d : α) :
    (l.drop m).getD j d = l.getD (m + j) d := by
  rw [List.getD_eq_getElem?_getD, List.getElem?_drop, List.getD_eq_getElem?_getD]

theorem vSub_isSome {x y : Val} (hx : x.isSome) (hy : y.isSome) :
    (vSub x y).isSome := by
  rcases Option.isSome_iff_exists.mp hx with ⟨a, rfl⟩
  rcases Option.isSome_iff_exists.mp hy with ⟨b, rfl⟩
  rfl

theorem getD_replicate_none (n i : ℕ) :
    ((List.replicate n (none : Val)).getD i none) = none := by
  rw [List.getD_eq_getElem?_getD, List.getElem?_replicate]
  split <;> rfl

theorem seriesMean_isSome {xs : List Val} (hall : ∀ x ∈ xs, x.isSome) (hne : xs ≠ []) :
    (seriesMean xs).isSome := by
  unfold seriesMean
  simp only []
  rw [if_neg ?_]
  · rfl
  · intro h
    rw [List.isEmpty_iff] at h
    rcases List.exists_mem_of_ne_nil xs hne with ⟨x, hx⟩
    have hid : id x = none := List.filterMap_eq_nil.mp h x hx
    simp only [id] at hid
    have hxs := hall x hx
    rw [hid] at hxs
    simp at hxs

theorem smaSeededEma_getD_early (mult : ℚ) (p : ℕ) (src : List Val) {i : ℕ}
    (hi : i < p - 1) :
    (smaSeededEma mult p src).getD i none = none := by
  unfold smaSeededEma
  rw [List.getD_append _ _ _ _ (by rw [List.length_replicate]; omega)]
  exact getD_replicate_none _ _

theorem smaSeededEma_getD_main (mult : ℚ) (p : ℕ) (src : List Val) {i : ℕ}
    (hi : p - 1 ≤ i) :
    (smaSeededEma mult p src).getD i none =
      (seriesMean (src.take p) ::
        recTail (blend mult) (seriesMean (src.take p)) (src.drop p)).getD
          (i - (p - 1)) none := by
  unfold smaSeededEma
  rw [List.getD_append_right _ _ _ _ (by rw [List.length_replicate]; omega)]
  rw [List.length_replicate]

theorem smaSeededEma_isSome (mult : ℚ) (p : ℕ) (src : List Val) (hp : 1 ≤ p)
    (hall : ∀ x ∈ src, x.isSome) {i : ℕ}
    (h1 : p - 1 ≤ i) (h2 : i < src.length) :
    ((smaSeededEma mult p src).getD i none).isSome := by
  rw [smaSeededEma_getD_main mult p src h1]
  have hne : src.take p ≠ [] := by
    intro h
    have h0 := congrArg List.length h
    rw [List.length_take] at h0
    simp only [List.length_nil] at h0
    omega
  have hseed : (seriesMean (src.take p)).isSome :=
    seriesMean_isSome (fun x hx => hall x (List.mem_of_mem_take hx)) hne
  apply getD_isSome_of_forall
  · intro x hx
    rcases List.mem_cons.mp hx with hx | hx
    · rw [hx]; exact hseed
    · exact recTail_isSome _ (blend_isSome mult) _ _ hseed
        (fun z hz => hall z (List.mem_of_mem_drop hz)) x hx
  · rw [List.length_cons, recTail_length, List.length_drop]
    omega

theorem macdLineL_getD_main (F S : ℕ) (src : List Val) (hF : 1 ≤ F) (hS : 1 ≤ S)
    (hn : max F S ≤ src.length) {i : ℕ} (h1 : S - 1 ≤ i) (h2 : i < src.length) :
    (macdLineL F S src).getD i none =
      vSub ((smaSeededEma (2 / ((F : ℚ) + 1)) F src).getD i none)
        ((smaSeededEma (2 / ((S : ℚ) + 1)) S src).getD i none) := by
  unfold macdLineL
  rw [List.getD_append_right _ _ _ _ (by rw [List.length_replicate]; omega)]
  rw [List.length_replicate]
  rw [getD_zipWith_cell vSub _ _ _
    (by rw [List.length_drop, smaSeededEma_length _ _ _ hF (by omega)]; omega)
    (by rw [List.length_drop, smaSeededEma_length _ _ _ hS (by omega)]; omega)]
  rw [getD_drop, getD_drop]
  rw [show S - 1 + (i - (S - 1)) = i from by omega]

theorem macdLineL_getD_early (F S : ℕ) (src : List Val) (hF : 1 ≤ F) (hS : 1 ≤ S)
    (hn : max F S ≤ src.length) {i : ℕ} (hi : i < max F S - 1) :
    (macdLineL F S src).getD i none = none := by
  by_cases hiS : i < S - 1
  · unfold macdLineL
    rw [List.getD_append _ _ _ _ (by rw [List.length_replicate]; omega)]
    exact getD_replicate_none _ _
  · have hiF : i < F - 1 := by omega
    rw [macdLineL_getD_main F S src hF hS hn (by omega) (by omega)]
    rw [smaSeededEma_getD_early _ _ _ hiF]
    rfl

theorem macdLineL_isSome (F S : ℕ) (src : List Val) (hF : 1 ≤ F) (hS : 1 ≤ S)
    (hn : max F S ≤ src.length) (hall : ∀ x ∈ src, x.isSome) {i : ℕ}
    (h1 : max F S - 1 ≤ i) (h2 : i < src.length) :
    ((macdLineL F S src).getD i none).isSome := by
  rw [macdLineL_getD_main F S src hF hS hn (by omega) h2]
  exact vSub_isSome
    (smaSeededEma_isSome _ F src hF hall (by omega) h2)
    (smaSeededEma_isSome _ S src hS hall (by omega) h2)

/-- A list whose first `k` positions are absent filters to its tail past `k`. -/
theorem filterMap_id_eq_drop {l : List Val} {k : ℕ}
    (h : ∀ i < k, l.getD i none = none) :
    l.filterMap id = (l.drop k).filterMap id := by
  conv_lhs => rw [← List.take_append_drop k l]
  rw [List.filterMap_append]
  rw [show (l.take k).filterMap id = [] from ?_]
  · rw [List.nil_append]
  · rw [List.filterMap_eq_nil]
    intro a ha
    rcases List.getElem_of_mem ha with ⟨j, hj, hja⟩
    have hjk : j < k := by
      have := hj
      rw [List.length_take] at this
      omega
    have hjl : j < l.length := by
      have := hj
      rw [List.length_take] at this
      omega
    have : (l.take k).getD j none = l.getD j none := by
      rw [List.getD_eq_getElem?_getD, List.getD_eq_getElem?_getD,
        List.getElem?_take, if_pos hjk]
    rw [List.getD_eq_getElem?_getD, List.getElem?_eq_getElem hj, hja] at this
    have hnone := h j hjk
    rw [← this] at hnone
    simp only [Option.getD_some] at hnone
    rw [hnone]
    rfl

/-- The signal seed window of an all-present source: it is exactly the first
`G` valid MACD values, and there are exactly `G` of them. -/
theorem macdValid_eq (F S G : ℕ) (src : List Val) (hF : 1 ≤ F) (hS : 1 ≤ S)
    (hG : 1 ≤ G) (hn : max F S + G - 1 ≤ src.length) (hall : ∀ x ∈ src, x.isSome) :
    macdValid F S G src = ((macdLineL F S src).filterMap id).take G ∧
    (macdValid F S G src).length = G := by
  set ML := macdLineL F S src with hML
  have hMLlen : ML.length = src.length :=
    macdLineL_length F S src hF hS (by omega)
  set fvm := max F S - 1 with hfvm
  have hw : (ML.take (max F S + G - 1)).drop fvm = (ML.drop fvm).take G := by
    rw [List.drop_take]
    rw [show max F S + G - 1 - fvm = G from by omega]
  have hwall : ∀ x ∈ (ML.drop fvm).take G, x.isSome := by
    intro x hx
    rcases List.getElem_of_mem hx with ⟨j, hj, hja⟩
    have hjlen : j < G := by
      have := hj; rw [List.length_take] at this; omega
    have hjd : j < (ML.drop fvm).length := by
      have := hj; rw [List.length_take] at this; omega
    have hjn : fvm + j < src.length := by
      rw [List.length_drop, hMLlen] at hjd
      omega
    have : ((ML.drop fvm).take G).getD j none = ML.getD (fvm + j) none := by
      rw [List.getD_eq_getElem?_getD, List.getElem?_take, if_pos hjlen,
        ← List.getD_eq_getElem?_getD, getD_drop]
    rw [List.getD_eq_getElem?_getD, List.getElem?_eq_getElem hj, hja] at this
    simp only [Option.getD_some] at this
    rw [this]
    exact macdLineL_isSome F S src hF hS (by omega) hall (by omega) (by omega)
  have hvalid : macdValid F S G src = ((ML.drop fvm).take G).filterMap id := by
    unfold macdValid
    rw [← hML, ← hfvm, hw]
  have hlenG : (((ML.drop fvm).take G).filterMap id).length = G := by
    rw [(filterMap_id_length_eq _).mpr hwall, List.length_take, List.length_drop,
      hMLlen]
    omega
  constructor
  · rw [hvalid]
    have hdropfm : ML.filterMap id = (ML.drop fvm).filterMap id :=
      filterMap_id_eq_drop (fun i hi =>
        macdLineL_getD_early F S src hF hS (by omega) (by omega))
    rw [hdropfm]
    conv_rhs => rw [← List.take_append_drop G (ML.drop fvm)]
    rw [List.filterMap_append]
    rw [List.take_left' hlenG]
  · rw [hvalid]
    exact hlenG

theorem signalLineL_eq_of_cond (F S G n : ℕ) (src : List Val)
    (hcond : max F S + G - 2 < n ∧ 0 < (macdValid F S G src).length) :
    signalLineL F S G n src =
      List.replicate (max F S + G - 2) none ++
        some ((macdValid F S G src).sum / ((macdValid F S G src).length : ℚ)) ::
          recTail (blend (2 / ((G : ℚ) + 1)))
            (some ((macdValid F S G src).sum / ((macdValid F S G src).length : ℚ)))
            ((macdLineL F S src).drop (max F S + G - 2 + 1)) := by
  unfold signalLineL
  simp only []
  rw [if_pos hcond]

theorem signalLineL_getD_early (F S G n : ℕ) (src : List Val) {i : ℕ}
    (hi : i < max F S + G - 2) :
    (signalLineL F S G n src).getD i none = none := by
  unfold signalLineL
  simp only []
  split
  · rw [List.getD_append _ _ _ _ (by rw [List.length_replicate]; omega)]
    exact getD_replicate_none _ _
  · exact getD_replicate_none _ _

theorem signalLineL_getD_seed (F S G n : ℕ) (src : List Val)
    (hcond : max F S + G - 2 < n ∧ 0 < (macdValid F S G src).length) :
    (signalLineL F S G n src).getD (max F S + G - 2) none =
      some ((macdValid F S G src).sum / ((macdValid F S G src).length : ℚ)) := by
  rw [signalLineL_eq_of_cond F S G n src hcond]
  rw [List.getD_append_right _ _ _ _ (by rw [List.length_replicate])]
  rw [List.length_replicate, Nat.sub_self]
  rfl

theorem signalLineL_getD_rec (F S G n : ℕ) (src : List Val)
    (hcond : max F S + G - 2 < n ∧ 0 < (macdValid F S G src).length)
    (hMLlen : (macdLineL F S src).length = n) {i : ℕ}
    (h1 : max F S + G - 2 < i) (h2 : i < n) :
    (signalLineL F S G n src).getD i none =
      blend (2 / ((G : ℚ) + 1)) ((macdLineL F S src).getD i none)
        ((signalLineL F S G n src).getD (i - 1) none) := by
  set fsi := max F S + G - 2 with hfsi
  set seed : Val :=
    some ((macdValid F S G src).sum / ((macdValid F S G src).length : ℚ)) with hseed
  set R := recTail (blend (2 / ((G : ℚ) + 1))) seed ((macdLineL F S src).drop (fsi + 1))
    with hR
  have hSL : signalLineL F S G n src = List.replicate fsi none ++ seed :: R :=
    signalLineL_eq_of_cond F S G n src hcond
  have hRlen : R.length = n - fsi - 1 := by
    rw [hR, recTail_length, List.length_drop, hMLlen]
    omega
  have hgetR : ∀ j, (signalLineL F S G n src).getD (fsi + 1 + j) none = R.getD j none := by
    intro j
    rw [hSL, List.getD_append_right _ _ _ _ (by rw [List.length_replicate]; omega)]
    rw [List.length_replicate]
    rw [show fsi + 1 + j - fsi = j + 1 from by omega]
    exact List.getD_cons_succ ..
  obtain ⟨j, rfl⟩ : ∃ j, i = fsi + 1 + j := ⟨i - fsi - 1, by omega⟩
  rw [hgetR j]
  rw [recTail_getD _ _ _ j (by rw [List.length_drop, hMLlen]; omega)]
  rw [getD_drop]
  rw [show fsi + 1 + j - 1 = fsi + j from by omega]
  congr 1
  by_cases hj : j = 0
  · subst hj
    rw [if_pos rfl]
    rw [hSL, List.getD_append_right _ _ _ _ (by rw [List.length_replicate]; omega)]
    rw [List.length_replicate]
    rw [show fsi + 0 - fsi = 0 from by omega]
    rfl
  · rw [if_neg hj]
    obtain ⟨k, rfl⟩ : ∃ k, j = k + 1 := ⟨j - 1, by omega⟩
    rw [show fsi + (k + 1) = fsi + 1 + k from by omega]
    rw [hgetR k]
    rw [show k + 1 - 1 = k from rfl]

/-- The output frame of `calculate_macd` on a fresh-named input, read back
column by column. -/
theorem getCol_macd_out (t : Table) (x y z : List Val)
    (hfresh : ∀ r ∈ reservedNames, r ∉ t.colNames) :
    (Table.mk t.labels (t.cols ++ [("macd_line", x), ("signal_line", y),
        ("macd_histogram", z)])).getCol "macd_line" = some x ∧
    (Table.mk t.labels (t.cols ++ [("macd_line", x), ("signal_line", y),
        ("macd_histogram", z)])).getCol "signal_line" = some y ∧
    (Table.mk t.labels (t.cols ++ [("macd_line", x), ("signal_line", y),
        ("macd_histogram", z)])).getCol "macd_histogram" = some z := by
  refine ⟨?_, ?_, ?_⟩ <;>
    [skip; skip; skip] <;>
    · show (List.find? _ (t.cols ++ _)).map Prod.snd = _
      rw [List.find?_append,
        Table.find?_none_of_fresh t (hfresh _ (by simp [reservedNames]))]
      simp [List.find?_cons]

/-- C3.  MACD's signal line on an all-present source with at least
`max(F,S)+G-1` rows: rows before the seed row `(max F S - 1) + G - 1` are
absent, the seed row holds the mean of the first `G` valid (non-absent)
MACD-line values, and every later row follows the EMA recurrence with
`alpha = 2/(G+1)`. -/
theorem spec_C3 (t : Table) (n F S G : ℕ) (column : String) (src : List Val)
    (hStd : Std t n) (hsrc : t.getCol column = some src)
    (hfresh : ∀ r ∈ reservedNames, r ∉ t.colNames)
    (hall : ∀ x ∈ src, x.isSome)
    (hF : 1 ≤ F) (hS : 1 ≤ S) (hG : 1 ≤ G) (hn : max F S + G - 1 ≤ n) :
    ∃ out ML SL, calculate_macd t F S G column = .ok out ∧
      out.getCol "macd_line" = some ML ∧
      out.getCol "signal_line" = some SL ∧
      ((ML.filterMap id).take G).length = G ∧
      (∀ i < max F S + G - 2, SL.getD i none = none) ∧
      SL.getD (max F S + G - 2) none =
        some (((ML.filterMap id).take G).sum / (G : ℚ)) ∧
      (∀ i, max F S + G - 2 < i → i < n →
        SL.getD i none =
          blend (2 / ((G : ℚ) + 1)) (ML.getD i none) (SL.getD (i - 1) none)) := by
  have hsrclen : src.length = n := Table.length_of_getCol hStd hsrc
  have hmacd := calculate_macd_spec t n F S G column src hStd hsrc hfresh hF hS hG
    (by omega)
  have hMLlen : (macdLineL F S src).length = n := by
    rw [macdLineL_length F S src hF hS (by omega), hsrclen]
  have hmv := macdValid_eq F S G src hF hS hG (by omega) hall
  have hcond : max F S + G - 2 < n ∧ 0 < (macdValid F S G src).length := by
    refine ⟨by omega, ?_⟩
    rw [hmv.2]
    omega
  obtain ⟨hgm, hgs, _⟩ := getCol_macd_out t (macdLineL F S src)
    (signalLineL F S G n src) (histogramL F S G n src) hfresh
  refine ⟨_, macdLineL F S src, signalLineL F S G n src, hmacd, hgm, hgs,
    ?_, ?_, ?_, ?_⟩
  · rw [← hmv.1]
    exact hmv.2
  · intro i hi
    exact signalLineL_getD_early F S G n src hi
  · rw [signalLineL_getD_seed F S G n src hcond]
    rw [hmv.2, hmv.1]
  · intro i h1 h2
    exact signalLineL_getD_rec F S G n src hcond hMLlen h1 h2

theorem spec_C1_witness :
    ∃ out S, calculate_sma wTwo 2 "close" = .ok out ∧
      out.getCol ("sma_" ++ toString 2) = some S ∧
      S.length = 2 ∧
      (∀ i, i + 1 < 2 → S.getD i none = none) ∧
      (∀ i, 2 - 1 ≤ i → i < 2 →
        ((([some 1, some 2] : List Val).take (i + 1)).drop (i + 1 - 2)).length = 2 ∧
        ((∀ x ∈ (([some 1, some 2] : List Val).take (i + 1)).drop (i + 1 - 2), x.isSome) →
          S.getD i none =
            some (((((([some 1, some 2] : List Val).take (i + 1)).drop (i + 1 - 2)).filterMap
              id).sum) / ((2 : ℕ) : ℚ))) ∧
        (none ∈ (([some 1, some 2] : List Val).take (i + 1)).drop (i + 1 - 2) →
          S.getD i none = none)) :=
  spec_C1 wTwo 2 2 "close" ([some 1, some 2] : List Val) ⟨rfl, by decide, by decide⟩ rfl
    (by decide)

theorem spec_C3_witness :
    ∃ out ML SL, calculate_macd wOne 1 1 1 "close" = .ok out ∧
      out.getCol "macd_line" = some ML ∧
      out.getCol "signal_line" = some SL ∧
      ((ML.filterMap id).take 1).length = 1 ∧
      (∀ i < max 1 1 + 1 - 2, SL.getD i none = none) ∧
      SL.getD (max 1 1 + 1 - 2) none =
        some (((ML.filterMap id).take 1).sum / ((1 : ℕ) : ℚ)) ∧
      (∀ i, max 1 1 + 1 - 2 < i → i < 1 →
        SL.getD i none =
          blend (2 / (((1 : ℕ) : ℚ) + 1)) (ML.getD i none) (SL.getD (i - 1) none)) :=
  spec_C3 wOne 1 1 1 1 "close" ([some 1] : List Val) ⟨rfl, by decide, by decide⟩ rfl
    (by decide) (by decide) (by decide) (by decide) (by decide) (by decide)

theorem spec_C4_witness :
    ∃ out E, calculate_ema wTwo 2 = .ok out ∧
      out.getCol ("ema_" ++ toString 2) = some E ∧
      E.length = ([1, 2] : List ℚ).length ∧
      (∀ i < ([1, 2] : List ℚ).length, (E.getD i none).isSome) ∧
      (0 < ([1, 2] : List ℚ).length →
        E.getD 0 none = some (([1, 2] : List ℚ).getD 0 0)) ∧
      (∀ i, 0 < i → i < ([1, 2] : List ℚ).length →
        E.getD i none =
          blend (2 / (((2 : ℕ) : ℚ) + 1)) (some (([1, 2] : List ℚ).getD i 0))
            (E.getD (i - 1) none)) :=
  spec_C4 wTwo 2 [1, 2] rfl (by decide)

theorem spec_C6_witness :
    ∃ out E, calculate_rsi wOne 14 = .ok out ∧
      out.getCol ("rsi_" ++ toString 14) = some E ∧
      (∀ i v, E.getD i none = some v → 0 ≤ v ∧ v ≤ 100) ∧
      (∀ i g, i < [some (1 : ℚ)].length →
        (avgGain 14 ([some 1] : List Val)).getD i none = some g → 0 < g →
        (avgLoss 14 ([some 1] : List Val)).getD i none = some 0 →
        E.getD i none = some 100) :=
  spec_C6 wOne 14 ([some 1] : List Val) rfl

theorem spec_C7_witness :
    calculate_rsi wOne 14 =
      .ok (wOne.setCol ("rsi_" ++ toString 14) (rsiColumn 14 ([some 1] : List Val))) ∧
    (∀ i, i < [some (1 : ℚ)].length →
      (avgGain 14 ([some 1] : List Val)).getD i none = some 0 →
      (avgLoss 14 ([some 1] : List Val)).getD i none = some 0 →
      (rsiColumn 14 ([some 1] : List Val)).getD i none = none) :=
  spec_C7 wOne 14 ([some 1] : List Val) rfl

theorem amended_C5_witness :
    calculate_rsi wTwo 2 =
      .ok (wTwo.setCol ("rsi_" ++ toString 2) (rsiColumn 2 ([some 1, some 2] : List Val))) ∧
    (diffS ([some 1, some 2] : List Val)).getD 0 none = none ∧
    (gains ([some 1, some 2] : List Val)).getD 0 none = some 0 ∧
    (losses ([some 1, some 2] : List Val)).getD 0 none = some 0 ∧
    (∀ i, i + 1 < 2 → (rsiColumn 2 ([some 1, some 2] : List Val)).getD i none = none) ∧
    ((avgGain 2 ([some 1, some 2] : List Val)).getD (2 - 1) none).isSome ∧
    ((avgLoss 2 ([some 1, some 2] : List Val)).getD (2 - 1) none).isSome :=
  amended_C5 wTwo 2 ([some 1, some 2] : List Val) rfl (by decide) (by decide) (by decide)

theorem amended_C9_witness :
    (∃ out, calculate_sma wOne 1 "close" = .ok out ∧ out.labels = wOne.labels ∧
      out.cols = wOne.cols ++
        [("sma_" ++ toString 1, rollingMean 1 ([some 1] : List Val))]) ∧
    (∃ out, calculate_ema wOne 1 = .ok out ∧ out.labels = wOne.labels ∧
      out.cols = wOne.cols ++
        [("ema_" ++ toString 1,
          ewmMean (2 / (((1 : ℕ) : ℚ) + 1)) ([some 1] : List Val))]) ∧
    (∃ out, calculate_rsi wOne 1 = .ok out ∧ out.labels = wOne.labels ∧
      out.cols = wOne.cols ++
        [("rsi_" ++ toString 1, rsiColumn 1 ([some 1] : List Val))]) ∧
    (∃ out, calculate_macd wOne 1 1 1 "close" = .ok out ∧
      out.labels = wOne.labels ∧
      out.cols.take wOne.cols.length = wOne.cols ∧
      out.colNames = wOne.colNames ++
        ["macd_line", "signal_line", "macd_histogram"]) :=
  amended_C9 wOne 1 1 1 1 1 "close" ([some 1] : List Val) ([some 1] : List Val)
    ⟨rfl, by decide, by decide⟩ rfl rfl (by decide) (by decide) (by decide)
    (by decide) (by decide) (by decide) (by decide) (by decide) (by decide)

theorem amended_C10_witness :
    ("sma_" ++ toString 1 ≠ "sma_" ++ toString 2) ∧
    ("ema_" ++ toString 1 ≠ "ema_" ++ toString 2) ∧
    ("rsi_" ++ toString 1 ≠ "rsi_" ++ toString 2) ∧
    ∃ out1 out2, calculate_sma wOne 1 "close" = .ok out1 ∧
      calculate_sma out1 2 "close" = .ok out2 ∧
      out2.getCol ("sma_" ++ toString 1) = some (rollingMean 1 ([some 1] : List Val)) ∧
      out2.getCol ("sma_" ++ toString 2) = some (rollingMean 2 ([some 1] : List Val)) :=
  amended_C10 wOne 1 2 "close" ([some 1] : List Val) rfl (by decide) (by decide)

end Indicator
